import Mathlib

/-!
Verification of the MATLAB recursive call analysis core of this repository
(script_parser.py, recursive_call_analyzer.py, call_chain_builder.py,
mcp_recursive_analyzer_server.py) against its natural-language specification.

The Python code is shallowly embedded: dictionaries become association lists
(`alookup` / `aset`, first-match semantics as in Python dicts), Python sets
that are only read through membership become lists with membership-guarded
insertion, recursive traversals become fuel-indexed Lean functions returning
`Option` (`none` models a computation that has not finished within the given
fuel; a function that returns `none` for every fuel therefore never
terminates), and string paths stay `String` (compared through their character
lists, which mirrors Python's code-point comparison).
-/

/-! ## Python module loading (recursive_call_analyzer.py line 12)

script_parser.py defines the top-level names listed below (its imports,
its logger, the single class `ImprovedMATLABScriptParser` and `main`).
`from script_parser import MATLABScriptParser` succeeds exactly when the
requested name is among the module's top-level names.  -/

/-- Top-level names bound in module script_parser.py (imports, logger,
the class and `main`), transcribed from the source. -/
def scriptParserTopLevelNames : List String :=
  ["os", "re", "logging", "Path", "Dict", "List", "Set", "Tuple", "Optional",
   "traceback", "logger", "ImprovedMATLABScriptParser", "main"]

/-- Result of executing `from script_parser import MATLABScriptParser`
(recursive_call_analyzer.py line 12): an ImportError unless the name is
exported by script_parser. -/
def importMATLABScriptParserFromScriptParser : Except String Unit :=
  if "MATLABScriptParser" ∈ scriptParserTopLevelNames then Except.ok ()
  else Except.error "ImportError: cannot import name MATLABScriptParser from script_parser"

/-- Loading module recursive_call_analyzer executes its import statements;
the stdlib/typing imports always succeed, so the module loads iff line 12
(`from script_parser import MATLABScriptParser`) succeeds. -/
def loadRecursiveCallAnalyzerModule : Except String Unit :=
  importMATLABScriptParserFromScriptParser

/-- mcp_recursive_analyzer_server.py line 22 does
`from recursive_call_analyzer import RecursiveCallAnalyzer`, which first
loads module recursive_call_analyzer. -/
def loadMcpRecursiveAnalyzerServerModule : Except String Unit :=
  loadRecursiveCallAnalyzerModule

/-- Constructing a RecursiveCallAnalyzer for a project path requires module
recursive_call_analyzer to have loaded. -/
def constructRecursiveCallAnalyzer (projectPath : String) : Except String String :=
  match loadRecursiveCallAnalyzerModule with
  | Except.ok _ => Except.ok projectPath
  | Except.error e => Except.error e

/-! ## Call graphs and walks

The call graph (`self.call_graph`, a dict from script to a set of callee
scripts) is embedded as an adjacency function `String → List String`; the
list is the set's iteration order, `[]` plays the role of an absent key. -/

/-- `Walk adj a t l`: `l` is a nonempty walk in the call graph `adj` that
starts at `a`, ends at `t`, and follows an edge of the graph at every
consecutive pair. -/
inductive Walk (adj : String → List String) : String → String → List String → Prop where
  | single (a : String) : Walk adj a a [a]
  | cons {a b t : String} {l : List String} :
      b ∈ adj a → Walk adj b t l → Walk adj a t (a :: l)

/-- `Y` is reachable from `X` in the call graph (there is some walk). -/
def Reachable (adj : String → List String) (X Y : String) : Prop :=
  ∃ w, Walk adj X Y w

/-! ## recursive_call_analyzer._find_paths_to_leaves (lines 381-424)

The nested Python function
```
def find_all_paths(start, current_path=None):
    current_path = (current_path or []) + [start]
    called_scripts = self.call_graph.get(start, set())
    if not called_scripts:
        if len(current_path) > 1: return [current_path]
        return []
    all_paths = []
    for called_script in called_scripts:
        all_paths.extend(find_all_paths(called_script, current_path))
    return all_paths
```
is embedded with fuel; note that, unlike `_recursive_analyze` and
`_find_path_to_script`, it performs no on-path / visited check at all. -/

/-- Sequences an `Option`-valued recursion over a list of callees,
concatenating the produced path lists (the `for called_script ...:
all_paths.extend(...)` loop); `none` (an unfinished branch) is contagious. -/
def optJoinMap (f : String → Option (List (List String))) :
    List String → Option (List (List String))
  | [] => some []
  | c :: rest =>
    match f c, optJoinMap f rest with
    | some sub, some more => some (sub ++ more)
    | _, _ => none

/-- Fuel-indexed embedding of `find_all_paths` inside `_find_paths_to_leaves`. -/
def findAllPathsToLeavesAux (adj : String → List String) :
    Nat → String → List String → Option (List (List String))
  | 0, _, _ => none
  | n + 1, start, currentPath =>
    let cur := currentPath ++ [start]
    match adj start with
    | [] => some (if 1 < cur.length then [cur] else [])
    | _ => optJoinMap (fun c => findAllPathsToLeavesAux adj n c cur) (adj start)

/-- `_find_paths_to_leaves(analysis_script)`: all paths from the script to
leaf nodes, starting from the empty path. -/
def findPathsToLeaves (adj : String → List String) (fuel : Nat) (s : String) :
    Option (List (List String)) :=
  findAllPathsToLeavesAux adj fuel s []

/-- A two-script project whose call graph is the 2-cycle
a.m → b.m → a.m (mutually recursive scripts). -/
def cycleCallGraph : String → List String :=
  fun s => if s = "a.m" then ["b.m"] else if s = "b.m" then ["a.m"] else []

/-- Call graph of the spec's Example 1: main.m calls helper.m, helper.m is
a leaf. -/
def exampleCallGraph : String → List String :=
  fun s => if s = "main.m" then ["helper.m"] else []

/-! ## recursive_call_analyzer._find_path_to_script (lines 329-379)

Its nested `find_all_paths(start, target, visited, path)` does carry a
`visited` set (the nodes of the path under construction): the target check
comes first, then the visited check, then the recursion with
`visited.copy()` extended by `start`. -/

/-- Fuel-indexed embedding of `find_all_paths` inside `_find_path_to_script`. -/
def findAllPathsToTargetAux (adj : String → List String) :
    Nat → List String → List String → String → String → Option (List (List String))
  | 0, _, _, _, _ => none
  | n + 1, visited, path, start, target =>
    if start = target then some [path ++ [start]]
    else if start ∈ visited then some []
    else
      optJoinMap
        (fun c => findAllPathsToTargetAux adj n (visited ++ [start]) (path ++ [start]) c target)
        (adj start)

/-- All simple paths between two scripts,
`find_all_paths(from_script, to_script)` with empty initial visited/path. -/
def findAllPathsToScript (adj : String → List String) (fuel : Nat) (X Y : String) :
    Option (List (List String)) :=
  findAllPathsToTargetAux adj fuel [] [] X Y

/-- Python's `min(all_paths, key=len)` on a nonempty list (first minimum
wins), `none` on an empty list. -/
def minByLen : List (List String) → Option (List String)
  | [] => none
  | p :: rest => some (rest.foldl (fun best q => if q.length < best.length then q else best) p)

/-- `_find_path_to_script(from_script, to_script)`: the shortest of all
simple paths, or an explicit no-path result (`some none`); the outer `none`
means the fuel ran out. -/
def findPathToScript (adj : String → List String) (fuel : Nat) (X Y : String) :
    Option (Option (List String)) :=
  match findAllPathsToScript adj fuel X Y with
  | none => none
  | some allPaths => some (minByLen allPaths)

/-! ## Association lists (Python dicts)

Python dicts keep insertion order; updating an existing key keeps its
position, a new key is appended at the end. -/

/-- Dict lookup `d.get(k)` / `d[k]`. -/
def alookup {κ : Type} [DecidableEq κ] {α : Type} : List (κ × α) → κ → Option α
  | [], _ => none
  | (k, v) :: rest, k' => if k = k' then some v else alookup rest k'

/-- Dict assignment `d[k] = v`. -/
def aset {κ : Type} [DecidableEq κ] {α : Type} : List (κ × α) → κ → α → List (κ × α)
  | [], k, v => [(k, v)]
  | (k', v') :: rest, k, v => if k' = k then (k, v) :: rest else (k', v') :: aset rest k v

/-- `if k not in d: d[k] = v`. -/
def asetIfMissing {κ : Type} [DecidableEq κ] {α : Type}
    (d : List (κ × α)) (k : κ) (v : α) : List (κ × α) :=
  match alookup d k with
  | some _ => d
  | none => aset d k v

/-! ## Script paths

Scripts are identified by their path relative to the project root (forward
slashes).  `Path(script).parts` / `.parent` / `.stem` are embedded over the
path's character list; directories are lists of path components, the
project root being `[]` (pathlib collapses `project_path / '.'` back to the
project path, so a root-level script's parent directory is the root). -/

/-- Split a character list at a separator character (the single-separator
case of Python's `str.split` as used through `pathlib` components). -/
def splitOnChar (sep : Char) : List Char → List (List Char)
  | [] => [[]]
  | c :: rest =>
    let r := splitOnChar sep rest
    if c = sep then [] :: r
    else
      match r with
      | h :: t => (c :: h) :: t
      | [] => [[c]]

/-- `Path(s).parts`, as strings. -/
def pathParts (s : String) : List String :=
  (splitOnChar '/' s.data).map String.mk

/-- The directory containing a script, as its list of components
(`str(project_path / Path(s).parent)` relative to the project root;
`[]` is the project root itself). -/
def dirOf (s : String) : List String :=
  (pathParts s).dropLast

/-- Concatenate character-list pieces with a separator character between
them (Python's `sep.join`). -/
def joinWithChar (sep : Char) : List (List Char) → List Char
  | [] => []
  | [p] => p
  | p :: q :: rest => p ++ sep :: joinWithChar sep (q :: rest)

/-- `Path(s).stem`: the final path component with its last suffix removed. -/
def stem (s : String) : String :=
  let base := ((pathParts s).getLast?).getD s
  let pieces := splitOnChar '.' base.data
  if pieces.length ≤ 1 then base else String.mk (joinWithChar '.' pieces.dropLast)

/-- Python string comparison (lexicographic on code points), embedded as the
lexicographic order of the character lists. -/
def strLE (a b : String) : Prop :=
  a.data ≤ b.data

instance : DecidableRel strLE := fun a b => by
  unfold strLE
  infer_instance

instance : IsTotal String strLE :=
  ⟨fun a b => le_total a.data b.data⟩

instance : IsTrans String strLE :=
  ⟨fun _ _ _ hab hbc => le_trans hab hbc⟩

instance : IsAntisymm String strLE :=
  ⟨fun a b hab hba => by
    cases a
    cases b
    exact congrArg String.mk (le_antisymm hab hba)⟩

/-! ## script_parser.ImprovedMATLABScriptParser: resolver state -/

/-- `definition_type` of a FunctionDefinition record:
`'explicit_function'` or `'script_file'`. -/
inductive DefType where
  | explicitFunction : DefType
  | scriptFile : DefType
deriving DecidableEq

/-- The resolver-facing parser state after a scan:
`function_scripts` (function name → ordered list of defining scripts),
`function_definitions` (function name × script → definition type; the
nested dict flattened to its key pairs) and `matlab_paths` (the simulated
search-path order, directories relative to the project root). -/
structure ParserSt where
  functionScripts : List (String × List String)
  functionDefinitions : List ((String × String) × DefType)
  matlabPaths : List (List String)
deriving DecidableEq

/-- The position of a script's directory in `matlab_paths`
(`for i, path in enumerate(self.matlab_paths): if ... == path: break`). -/
def pathIndexAux : List (List String) → List String → Option Nat
  | [], _ => none
  | p :: rest, d => if p = d then some 0 else (pathIndexAux rest d).map (· + 1)

/-- `get_matlab_path_priority`'s `path_position`, default 999999 when the
directory is not on the search path. -/
def pathIndex (paths : List (List String)) (s : String) : Nat :=
  (pathIndexAux paths (dirOf s)).getD 999999

/-- `get_matlab_path_priority(script)` inside `_select_by_matlab_path_rules`:
`(0 if is_in_current_dir else 1, path_position, script)`. -/
def scriptKey (paths : List (List String)) (s : String) : Nat × Nat × List Char :=
  (if (pathParts s).length = 1 then 0 else 1, pathIndex paths s, s.data)

/-- The ordering `sorted(..., key=get_matlab_path_priority)` sorts by:
lexicographic comparison of the key triples (Python tuple comparison). -/
def keyLE (paths : List (List String)) (a b : String) : Prop :=
  (scriptKey paths a).1 < (scriptKey paths b).1 ∨
    ((scriptKey paths a).1 = (scriptKey paths b).1 ∧
      ((scriptKey paths a).2.1 < (scriptKey paths b).2.1 ∨
        ((scriptKey paths a).2.1 = (scriptKey paths b).2.1 ∧
          (scriptKey paths a).2.2 ≤ (scriptKey paths b).2.2)))

instance (paths : List (List String)) : DecidableRel (keyLE paths) := fun a b => by
  unfold keyLE
  infer_instance

instance (paths : List (List String)) : IsTotal String (keyLE paths) :=
  ⟨fun a b => by
    unfold keyLE
    rcases Nat.lt_trichotomy (scriptKey paths a).1 (scriptKey paths b).1 with h1 | h1 | h1
    · exact Or.inl (Or.inl h1)
    · rcases Nat.lt_trichotomy (scriptKey paths a).2.1 (scriptKey paths b).2.1 with h2 | h2 | h2
      · exact Or.inl (Or.inr ⟨h1, Or.inl h2⟩)
      · rcases le_total (scriptKey paths a).2.2 (scriptKey paths b).2.2 with h3 | h3
        · exact Or.inl (Or.inr ⟨h1, Or.inr ⟨h2, h3⟩⟩)
        · exact Or.inr (Or.inr ⟨h1.symm, Or.inr ⟨h2.symm, h3⟩⟩)
      · exact Or.inr (Or.inr ⟨h1.symm, Or.inl h2⟩)
    · exact Or.inr (Or.inl h1)⟩

instance (paths : List (List String)) : IsTrans String (keyLE paths) :=
  ⟨fun a b c hab hbc => by
    unfold keyLE at *
    rcases hab with h1 | ⟨e1, h1'⟩
    · rcases hbc with h2 | ⟨e2, _⟩
      · exact Or.inl (Nat.lt_trans h1 h2)
      · exact Or.inl (e2 ▸ h1)
    · rcases hbc with h2 | ⟨e2, h2'⟩
      · exact Or.inl (e1 ▸ h2)
      · refine Or.inr ⟨e1.trans e2, ?_⟩
        rcases h1' with h1 | ⟨f1, h1''⟩
        · rcases h2' with h2 | ⟨f2, _⟩
          · exact Or.inl (Nat.lt_trans h1 h2)
          · exact Or.inl (f2 ▸ h1)
        · rcases h2' with h2 | ⟨f2, h2''⟩
          · exact Or.inl (f1 ▸ h2)
          · exact Or.inr ⟨f1.trans f2, le_trans h1'' h2''⟩⟩

instance (paths : List (List String)) : IsAntisymm String (keyLE paths) :=
  ⟨fun a b hab hba => by
    unfold keyLE at *
    have hdata : a.data = b.data := by
      rcases hab with h1 | ⟨e1, h1'⟩
      · rcases hba with h2 | ⟨e2, _⟩
        · exact absurd (Nat.lt_trans h1 h2) (lt_irrefl _)
        · exact absurd (e2 ▸ h1) (lt_irrefl _)
      · rcases hba with h2 | ⟨e2, h2'⟩
        · exact absurd (e1 ▸ h2) (lt_irrefl _)
        · rcases h1' with h1 | ⟨f1, h1''⟩
          · rcases h2' with h2 | ⟨f2, _⟩
            · exact absurd (Nat.lt_trans h1 h2) (lt_irrefl _)
            · exact absurd (f2 ▸ h1) (lt_irrefl _)
          · rcases h2' with h2 | ⟨f2, h2''⟩
            · exact absurd (f1 ▸ h2) (lt_irrefl _)
            · exact le_antisymm h1'' h2''
    cases a
    cases b
    exact congrArg String.mk hdata⟩

/-- `_select_by_matlab_path_rules(scripts)`: `""` on an empty list,
otherwise the head of the list sorted by the MATLAB path key. -/
def selectByMatlabPathRules (paths : List (List String)) (scripts : List String) : String :=
  match scripts with
  | [] => ""
  | s :: rest => (List.insertionSort (keyLE paths) (s :: rest)).headI

/-- `_determine_primary_by_matlab_rules(func_name, scripts)`: partition the
recorded definitions into explicit functions and script files, prefer the
explicit group, and pick by path rules within the chosen group. -/
def determinePrimaryByMatlabRules (defs : List ((String × String) × DefType))
    (paths : List (List String)) (funcName : String) (scripts : List String) : String :=
  if (scripts.filter
        (fun s => alookup defs (funcName, s) = some DefType.explicitFunction)).isEmpty then
    selectByMatlabPathRules paths
      (scripts.filter (fun s => alookup defs (funcName, s) = some DefType.scriptFile))
  else
    selectByMatlabPathRules paths
      (scripts.filter (fun s => alookup defs (funcName, s) = some DefType.explicitFunction))

/-- The per-name body of `_establish_matlab_syntax_relationships`: with at
least two definitions, determine the primary and, when it is in the list,
move it (only it) to the front with `scripts.remove` / `scripts.insert(0)`. -/
def establishEntryScripts (defs : List ((String × String) × DefType))
    (paths : List (List String)) (funcName : String) (scripts : List String) : List String :=
  if 1 < scripts.length then
    if determinePrimaryByMatlabRules defs paths funcName scripts ∈ scripts then
      determinePrimaryByMatlabRules defs paths funcName scripts ::
        scripts.erase (determinePrimaryByMatlabRules defs paths funcName scripts)
    else scripts
  else scripts

/-- `_establish_matlab_syntax_relationships`: reorder every multi-definition
name's script list in place. -/
def establishMatlabSyntaxRelationships (st : ParserSt) : ParserSt :=
  ⟨st.functionScripts.map
      (fun nl => (nl.1, establishEntryScripts st.functionDefinitions st.matlabPaths nl.1 nl.2)),
    st.functionDefinitions, st.matlabPaths⟩

/-- The fields of the dict returned by `get_function_definition` /
`get_function_definition_for_script` that carry the resolution outcome. -/
structure FuncDefInfo where
  found : Bool
  totalDefinitions : Nat
  primaryScript : Option String
  recommendedScript : Option String
  allScripts : List String
  isInternalDefinition : Bool
deriving DecidableEq

/-- The not-found result (`{'found': False, ...}`). -/
def notFoundInfo : FuncDefInfo :=
  ⟨false, 0, none, none, [], false⟩

/-- `_get_context_based_recommendation`: the available script whose
directory comes first on the MATLAB path (strict improvement only, first
such script wins), `none` when no script's directory is on the path. -/
def getContextBasedRecommendation (paths : List (List String))
    (availableScripts : List String) : Option String :=
  (availableScripts.foldl
    (fun acc script =>
      match pathIndexAux paths (dirOf script) with
      | some i => if i < acc.2 then (some script, i) else acc
      | none => acc)
    ((none : Option String), 999999)).1

/-- `get_function_definition(func_name, calling_script)`. -/
def getFunctionDefinition (st : ParserSt) (funcName : String)
    (callingScript : Option String) : FuncDefInfo :=
  match alookup st.functionScripts funcName with
  | none => notFoundInfo
  | some scripts =>
    let recommended :=
      match callingScript with
      | some _ =>
        if 1 < scripts.length then getContextBasedRecommendation st.matlabPaths scripts
        else none
      | none => none
    ⟨true, scripts.length, scripts.head?, recommended, scripts, false⟩

/-- `get_function_definition_for_script(func_name, calling_script)`
(script_parser.py lines 544-586): an explicit definition inside the calling
script itself wins and is flagged `is_internal_definition`. -/
def getFunctionDefinitionForScript (st : ParserSt) (funcName callingScript : String) :
    FuncDefInfo :=
  match alookup st.functionScripts funcName with
  | none => notFoundInfo
  | some scripts =>
    if callingScript ∈ scripts ∧
        alookup st.functionDefinitions (funcName, callingScript) = some DefType.explicitFunction then
      ⟨true, scripts.length, some callingScript, some callingScript, scripts, true⟩
    else getFunctionDefinition st funcName (some callingScript)

/-! ## call_chain_builder.CallChainBuilder._build_call_graph (lines 80-114) -/

/-- The edge produced by one `(script_name, func_call)` pair during
`_build_call_graph`: suppressed when the caller has an internal (explicit)
definition of the name, otherwise the primary definition (index 0), and no
self-loop. -/
def edgeForCall (st : ParserSt) (scriptName funcCall : String) : Option String :=
  match alookup st.functionScripts funcCall with
  | none => none
  | some calledScripts =>
    let shouldCreateExternalCall : Bool :=
      if scriptName ∈ calledScripts then
        !(getFunctionDefinitionForScript st funcCall scriptName).isInternalDefinition
      else true
    if shouldCreateExternalCall then
      match calledScripts.head? with
      | some calledScript => if calledScript ≠ scriptName then some calledScript else none
      | none => none
    else none

/-- `_build_call_graph`: fold `edgeForCall` over every script's call set,
collecting the edge set of the call graph. -/
def buildCallGraph (st : ParserSt) (scriptCalls : List (String × List String)) :
    List (String × String) :=
  scriptCalls.foldl
    (fun g sc =>
      sc.2.foldl
        (fun g c =>
          match edgeForCall st sc.1 c with
          | some callee => if (sc.1, callee) ∈ g then g else g ++ [(sc.1, callee)]
          | none => g)
        g)
    []

/-! ## script_parser.scan_project (lines 43-99)

A `SourceFile` records what the per-file passes of `_parse_script_file`
extract from one script file before any cross-file processing: the list of
explicitly declared function names found by the declaration regex of
`_extract_functions_with_details` (dict key order) and whether the file has
non-blank content (`content.strip()` truthiness).  The scan pipeline —
per-file parsing in enumeration order, forced stem mapping in set-iteration
order, search-path construction over the sorted file list, and the final
relationship pass — is embedded below over a list of such files. -/

/-- Per-file scanner output for one script file. -/
structure SourceFile where
  path : String
  explicitDefs : List String
  nonblank : Bool
deriving DecidableEq

/-- The function names a file contributes during `_parse_script_file`: its
explicit definitions, or its stem alone when it has none but non-blank
content (the implicit script-as-function rule). -/
def parseNames (f : SourceFile) : List String :=
  if f.explicitDefs = [] ∧ f.nonblank then [stem f.path] else f.explicitDefs

/-- The definition type of the file's contributions. -/
def parseDefType (f : SourceFile) : DefType :=
  if f.explicitDefs = [] ∧ f.nonblank then DefType.scriptFile else DefType.explicitFunction

/-- The cross-file state accumulated by scanning: `function_scripts` and
`function_definitions`. -/
structure ScanSt where
  functionScripts : List (String × List String)
  functionDefinitions : List ((String × String) × DefType)
deriving DecidableEq

/-- One name contribution inside `_parse_script_file`: append the script to
the name's list unless already present, and record the definition detail
(`function_definitions[func_name][script_name] = func_info`). -/
def parseAddDef (st : ScanSt) (script name : String) (ty : DefType) : ScanSt :=
  match alookup st.functionScripts name with
  | none =>
    ⟨st.functionScripts ++ [(name, [script])], aset st.functionDefinitions (name, script) ty⟩
  | some scripts =>
    if script ∈ scripts then
      ⟨st.functionScripts, aset st.functionDefinitions (name, script) ty⟩
    else
      ⟨aset st.functionScripts name (scripts ++ [script]),
        aset st.functionDefinitions (name, script) ty⟩

/-- `_parse_script_file` (the cross-file part): contribute every parsed
name of the file. -/
def parseFile (st : ScanSt) (f : SourceFile) : ScanSt :=
  (parseNames f).foldl (fun st n => parseAddDef st f.path n (parseDefType f)) st

/-- One step of `_force_map_all_script_names` for a script: map the file
stem to the script (creating or appending), recording a script-file
definition only when none exists yet; nothing happens when the script is
already in the stem's list. -/
def forceAddDef (st : ScanSt) (script : String) : ScanSt :=
  match alookup st.functionScripts (stem script) with
  | none =>
    ⟨st.functionScripts ++ [(stem script, [script])],
      asetIfMissing st.functionDefinitions (stem script, script) DefType.scriptFile⟩
  | some scripts =>
    if script ∈ scripts then st
    else
      ⟨aset st.functionScripts (stem script) (scripts ++ [script]),
        asetIfMissing st.functionDefinitions (stem script, script) DefType.scriptFile⟩

/-- Passes two and three of `scan_project`: parse every file in file-system
enumeration order, then force-map all script names; `fmOrder` is the
iteration order of the Python set `self.script_files` (arbitrary, a
permutation of the script paths). -/
def scanPre (files : List SourceFile) (fmOrder : List String) : ScanSt :=
  fmOrder.foldl forceAddDef (files.foldl parseFile ⟨[], []⟩)

/-- `_build_matlab_paths_correctly`: project root first, then each script's
directory in creation order (the sorted path list), first occurrence only. -/
def buildMatlabPathsCorrectly (files : List SourceFile) : List (List String) :=
  (List.insertionSort strLE (files.map SourceFile.path)).foldl
    (fun ps s => if dirOf s ∈ ps then ps else ps ++ [dirOf s])
    [[]]

/-- `scan_project`: parse, force-map, build the search path, establish the
MATLAB-rule relationships. -/
def scanProject (files : List SourceFile) (fmOrder : List String) : ParserSt :=
  let pre := scanPre files fmOrder
  establishMatlabSyntaxRelationships
    ⟨pre.functionScripts, pre.functionDefinitions, buildMatlabPathsCorrectly files⟩

/-- The primary definition of a function name after a scan: index 0 of its
script list (`scripts[0]`), `none` for an unknown name. -/
def primaryDefinition (st : ParserSt) (name : String) : Option String :=
  (alookup st.functionScripts name).bind List.head?

/-! ## script_parser._extract_function_calls (lines 407-508)

The four call-shape regexes, the assignment-LHS collection and the comment
stripping are embedded as deterministic matchers over each line's character
list (`\s`, `\w`, `[A-Za-z]` with their ASCII meaning). -/

/-- `\s` (within a single line). -/
def isSpaceChar (c : Char) : Bool :=
  c = ' ' || c = '\t' || c = '\r' || c = Char.ofNat 11 || c = Char.ofNat 12

/-- `[A-Za-z]`. -/
def isAlphaChar (c : Char) : Bool :=
  (decide ('A' ≤ c) && decide (c ≤ 'Z')) || (decide ('a' ≤ c) && decide (c ≤ 'z'))

/-- `\w`. -/
def isWordChar (c : Char) : Bool :=
  isAlphaChar c || c.isDigit || c = '_'

/-- Greedy `[A-Za-z]\w*` at the head of the input: the matched identifier
and the remaining characters. -/
def parseIdentChars : List Char → Option (String × List Char)
  | [] => none
  | c :: cs =>
    if isAlphaChar c then
      some (String.mk (c :: cs.takeWhile isWordChar), cs.dropWhile isWordChar)
    else none

/-- Rule 1, `^\s*([A-Za-z]\w*)\s*\(.*\)\s*;?\s*$`: an identifier, an
opening parenthesis, and a tail that ends (after optional whitespace, one
optional semicolon and more whitespace) with a closing parenthesis. -/
def matchLineStartCall (line : List Char) : Option String :=
  match parseIdentChars (line.dropWhile isSpaceChar) with
  | none => none
  | some (name, r1) =>
    match r1.dropWhile isSpaceChar with
    | '(' :: r3 =>
      let rev := (r3.reverse).dropWhile isSpaceChar
      let rev2 :=
        match rev with
        | ';' :: t => t.dropWhile isSpaceChar
        | _ => rev
      match rev2 with
      | ')' :: _ => some name
      | _ => none
    | _ => none

/-- Rule 3, `^\s*([A-Za-z]\w*)\s*;\s*$`. -/
def matchBareSemiCall (line : List Char) : Option String :=
  match parseIdentChars (line.dropWhile isSpaceChar) with
  | none => none
  | some (name, r1) =>
    match r1.dropWhile isSpaceChar with
    | ';' :: r2 => if (r2.dropWhile isSpaceChar).isEmpty then some name else none
    | _ => none

/-- Rule 4, `^\s*([A-Za-z]\w*)\s*$`. -/
def matchBareCall (line : List Char) : Option String :=
  match parseIdentChars (line.dropWhile isSpaceChar) with
  | none => none
  | some (name, r1) => if (r1.dropWhile isSpaceChar).isEmpty then some name else none

/-- The assignment pattern `^\s*([A-Za-z]\w*)\s*=`. -/
def matchAssignLhs (line : List Char) : Option String :=
  match parseIdentChars (line.dropWhile isSpaceChar) with
  | none => none
  | some (name, r1) =>
    match r1.dropWhile isSpaceChar with
    | '=' :: _ => some name
    | _ => none

/-- Rule 2, `finditer` of `=\s*([A-Za-z]\w*)\s*\(`: every identifier that
follows an equals sign (through whitespace) and is followed by an opening
parenthesis. -/
def rhsCallNames : List Char → List String
  | [] => []
  | c :: rest =>
    if c = '=' then
      match parseIdentChars (rest.dropWhile isSpaceChar) with
      | some (name, r1) =>
        (match r1.dropWhile isSpaceChar with
         | '(' :: _ => name :: rhsCallNames rest
         | _ => rhsCallNames rest)
      | none => rhsCallNames rest
    else rhsCallNames rest

/-- The `matlab_keywords` deny-list, transcribed from the source. -/
def matlabKeywords : List String :=
  ["if", "else", "elseif", "end", "for", "while", "switch", "case", "otherwise",
   "try", "catch", "function", "return", "break", "continue", "global", "persistent",
   "clear", "clc", "close", "figure", "plot", "subplot", "title", "xlabel", "ylabel",
   "legend", "grid", "hold", "axis", "xlim", "ylim", "text", "annotation", "gcf",
   "fprintf", "mean", "isnumeric", "isempty", "on", "off", "length", "size",
   "exist", "mkdir", "fullfile", "char", "string", "regexp", "bitset", "bitget",
   "double", "abs", "vertcat", "find", "sort", "unique", "eval", "saveas", "imwrite",
   "getframe", "set", "get", "xline", "yline", "yticks", "zeros", "ones", "horzcat",
   "vertcat", "cellfun", "strcat", "strrep", "strsplit", "regexprep", "replace",
   "contains", "strcmp", "strfind", "sprintf", "num2str", "str2double", "round",
   "ceil", "floor", "min", "max", "sum", "mod", "bitget", "bitset", "actxserver",
   "VideoReader", "readFrame", "image", "copyfile", "delete", "mkdir", "rmdir",
   "movefile", "load", "save", "xlsread", "xlswrite", "uigetdir", "uigetfile",
   "input", "disp", "fprintf", "warning", "error", "pause", "tic", "toc"]

/-- `calls.add(name)` (set insertion). -/
def addCall (calls : List String) (n : String) : List String :=
  if n ∈ calls then calls else calls ++ [n]

/-- The contributions of the parenthesized shapes (rules 1 and 2) on one
line: these are the shapes that filter out assigned variables. -/
def parenCallsOfLine (assigned : List String) (line : List Char) : List String :=
  match matchLineStartCall line with
  | some name =>
    if name ∉ matlabKeywords ∧ name ∉ assigned ∧ 1 < name.length then [name] else []
  | none =>
    (rhsCallNames line).filter
      (fun n => n ∉ matlabKeywords ∧ n ∉ assigned ∧ 1 < n.length)

/-- The contributions of the bare shapes (rules 3 and 4) on one line: only
the keyword and length filters apply. -/
def bareCallsOfLine (line : List Char) : List String :=
  (match matchBareSemiCall line with
   | some n => if n ∉ matlabKeywords ∧ 1 < n.length then [n] else []
   | none => []) ++
  (match matchBareCall line with
   | some n => if n ∉ matlabKeywords ∧ 1 < n.length then [n] else []
   | none => [])

/-- The per-line body of the extraction loop: skip blank lines and lines
starting with a field-access dot; when rule 1 matches, its (possibly
rejected) contribution is final for the line (`continue`); otherwise rules
2, 3 and 4 all contribute. -/
def callsOfLine (assigned : List String) (line : List Char) : List String :=
  let stripped := line.dropWhile isSpaceChar
  if stripped.isEmpty then []
  else if stripped.head? = some '.' then []
  else
    parenCallsOfLine assigned line ++
      (match matchLineStartCall line with
       | some _ => []
       | none => bareCallsOfLine line)

/-- Comment stripping: `line[:line.index('%')]` when a percent sign occurs. -/
def stripComment (line : List Char) : List Char :=
  line.takeWhile (fun c => c ≠ '%')

/-- `content.split('\n')`, each line as its character list. -/
def toLines (content : String) : List (List Char) :=
  (splitOnChar '\n' content.data)

/-- `_extract_function_calls(content)`: strip comments, collect assignment
left-hand sides over all lines, run the four call-shape rules per line, and
apply the final keyword filter. -/
def extractFunctionCalls (content : String) : List String :=
  let codeLines := (toLines content).map stripComment
  let assignedVars :=
    codeLines.foldl
      (fun acc l =>
        match matchAssignLhs l with
        | some n => addCall acc n
        | none => acc)
      []
  let calls :=
    codeLines.foldl (fun acc l => (callsOfLine assignedVars l).foldl addCall acc) []
  calls.filter (fun c => c ∉ matlabKeywords)

/-! ## call_chain_builder.CallChainBuilder.build_call_chains (lines 39-70)

`build_call_chains` validates the entry script against the scanned
`script_functions` index: an unknown entry logs an error and returns the
plain empty dict `{}` (`recursive_call_analyzer.analyze_recursive_calls`
lines 66-69 behave identically).  The recursive chain construction
`_recursive_build_chain` is embedded with fuel. -/

/-- Builder state after `_parse_project` and `_build_call_graph`:
the `script_functions` index and the call graph. -/
structure BuilderSt where
  scriptFunctions : List (String × List String)
  callGraph : String → List String

/-- Threads the chain dictionary through an `Option`-valued loop body over
the callees of one script. -/
def optFold (f : String → List (String × List String) → Option (List (String × List String))) :
    List String → List (String × List String) → Option (List (String × List String))
  | [], chains => some chains
  | c :: rest, chains =>
    match f c chains with
    | some chains' => optFold f rest chains'
    | none => none

/-- `_recursive_build_chain(current_script, current_path)`: record the
path, then recurse into every callee not already on the path (a callee on
the path is a detected cycle and is skipped). -/
def recursiveBuildChain (adj : String → List String) :
    Nat → String → List String → List (String × List String) →
    Option (List (String × List String))
  | 0, _, _, _ => none
  | n + 1, cur, path, chains =>
    optFold
      (fun c ch =>
        if c ∈ path then some ch
        else recursiveBuildChain adj n c (path ++ [c]) ch)
      (adj cur) (aset chains cur path)

/-- `build_call_chains(entry_script)`: an entry script absent from
`script_functions` yields the empty dict, otherwise the recursive
construction starting from `[entry_script]`. -/
def buildCallChains (st : BuilderSt) (entry : String) (fuel : Nat) :
    Option (List (String × List String)) :=
  if (alookup st.scriptFunctions entry).isNone then some []
  else recursiveBuildChain st.callGraph fuel entry [entry] []

/-! ## Concrete states used by the witnesses and counterexamples -/

/-- A resolved project in which `caller.m` explicitly defines `util`, while
the primary definition of `util` is the different script `other.m`. -/
def shadowingParserSt : ParserSt :=
  ⟨[("util", ["other.m", "caller.m"])],
    [(("util", "other.m"), DefType.explicitFunction),
     (("util", "caller.m"), DefType.explicitFunction)],
    [[]]⟩

/-- Definition records of a project where the name `f` is defined
implicitly by script `f.m` and explicitly by `y.m` and `z.m`. -/
def multiDefDefs : List ((String × String) × DefType) :=
  [(("f", "f.m"), DefType.scriptFile),
   (("f", "y.m"), DefType.explicitFunction),
   (("f", "z.m"), DefType.explicitFunction)]

/-- Search path of a project whose scripts all sit in the project root. -/
def rootOnlyPaths : List (List String) :=
  [[]]

/-- A scanned builder state containing only `main.m` (and an empty call
graph). -/
def mainOnlyBuilderSt : BuilderSt :=
  ⟨[("main.m", ["main"])], fun _ => []⟩

/-- Scanner output of a two-file project: `b.m` is a script file with no
explicit definitions, `a.m` explicitly defines `foo` (and is otherwise
blank). -/
def twoFileProject : List SourceFile :=
  [⟨"b.m", [], true⟩, ⟨"a.m", ["foo"], true⟩]

/-- The same two files enumerated in the opposite file-system order. -/
def twoFileProjectReversed : List SourceFile :=
  [⟨"a.m", ["foo"], true⟩, ⟨"b.m", [], true⟩]

/-! # Theorems -/

/-! ## C1: the import of MATLABScriptParser fails at module load time -/

/-- C1: for every project path, constructing a RecursiveCallAnalyzer fails
before any analysis runs: recursive_call_analyzer.py imports the name
`MATLABScriptParser` from script_parser, but script_parser defines only
`ImprovedMATLABScriptParser`, so loading the module (and hence the MCP
server module, and hence every operation of this query surface) raises an
import-time error. -/
theorem recursiveCallAnalyzer_import_fails :
    "MATLABScriptParser" ∉ scriptParserTopLevelNames ∧
    "ImprovedMATLABScriptParser" ∈ scriptParserTopLevelNames ∧
    loadRecursiveCallAnalyzerModule =
      Except.error "ImportError: cannot import name MATLABScriptParser from script_parser" ∧
    loadMcpRecursiveAnalyzerServerModule =
      Except.error "ImportError: cannot import name MATLABScriptParser from script_parser" ∧
    ∀ projectPath, constructRecursiveCallAnalyzer projectPath =
      Except.error "ImportError: cannot import name MATLABScriptParser from script_parser" := by
  refine ⟨by decide, by decide, rfl, rfl, fun projectPath => rfl⟩

/-! ## C2: `_find_paths_to_leaves` has no cycle check and diverges

`_recursive_analyze` (line 139) and `_find_path_to_script` (line 357) prune
a node already on the active path, but the nested `find_all_paths` of
`_find_paths_to_leaves` (lines 399-419) recurses into every callee
unconditionally.  On the 2-cycle a.m ⇄ b.m the traversal therefore exhausts
every finite amount of fuel: the Python function never terminates
(RecursionError), contradicting the claimed depth bound. -/

theorem findAllPathsToLeavesAux_cycle_none :
    ∀ fuel s pre, s = "a.m" ∨ s = "b.m" →
      findAllPathsToLeavesAux cycleCallGraph fuel s pre = none := by
  intro fuel
  induction fuel with
  | zero => intro s pre _; rfl
  | succ n ih =>
    intro s pre h
    rcases h with h | h <;> subst h
    · have hb := ih "b.m" (pre ++ ["a.m"]) (Or.inr rfl)
      simp [findAllPathsToLeavesAux, cycleCallGraph, optJoinMap, hb]
    · have ha := ih "a.m" (pre ++ ["b.m"]) (Or.inl rfl)
      simp [findAllPathsToLeavesAux, cycleCallGraph, optJoinMap, ha]

/-- C2: the claim that every Path Engine traversal terminates with
recursion depth bounded by the number of distinct scripts fails for
`_find_paths_to_leaves`: on the two-script cyclic call graph the traversal
from a.m exhausts every fuel (its recursion never returns), even though the
graph has only two distinct scripts. -/
theorem pathsToLeaves_nonterminating_on_cycle :
    ∀ fuel, findPathsToLeaves cycleCallGraph fuel "a.m" = none :=
  fun fuel => findAllPathsToLeavesAux_cycle_none fuel "a.m" [] (Or.inl rfl)

/-! ## Walk lemmas -/

theorem Walk.ne_nil {adj : String → List String} {a t : String} {l : List String}
    (h : Walk adj a t l) : l ≠ [] := by
  cases h <;> simp

theorem Walk.head_eq {adj : String → List String} {a t : String} {l : List String}
    (h : Walk adj a t l) : l.head? = some a := by
  cases h <;> rfl

theorem Walk.length_pos {adj : String → List String} {a t : String} {l : List String}
    (h : Walk adj a t l) : 0 < l.length := by
  cases h <;> simp

theorem Walk.getLast_eq {adj : String → List String} {a t : String} {l : List String}
    (h : Walk adj a t l) : l.getLast? = some t := by
  induction h with
  | single a => rfl
  | cons hb hw ih =>
    rename_i a b t l
    cases l with
    | nil => exact absurd rfl hw.ne_nil
    | cons x xs => rw [List.getLast?_cons_cons]; exact ih

theorem Walk.last_mem {adj : String → List String} {a t : String} {l : List String}
    (h : Walk adj a t l) : t ∈ l := by
  induction h with
  | single a => exact List.mem_singleton.mpr rfl
  | cons hb hw ih => exact List.mem_cons_of_mem _ ih

theorem Walk.glue {adj : String → List String} {a s c t : String} {q w : List String}
    (hq : Walk adj a s q) (hc : c ∈ adj s) (hw : Walk adj c t w) :
    Walk adj a t (q ++ w) := by
  induction hq with
  | single x => exact Walk.cons hc hw
  | cons hb hq' ih => exact Walk.cons hb (ih hc)

theorem Walk.overlap {adj : String → List String} {a m t : String} {p q : List String}
    (hp : Walk adj a m p) (hq : Walk adj m t q) : Walk adj a t (p ++ q.tail) := by
  induction hp with
  | single x =>
    cases hq with
    | single y => exact Walk.single _
    | cons hb hl => exact Walk.cons hb hl
  | cons hb hp' ih => exact Walk.cons hb (ih hq)

/-- Inversion for a walk along a list with at least two elements. -/
theorem Walk.inv_cons {adj : String → List String} {a t x : String} {l : List String}
    (h : Walk adj a t (x :: l)) (hne : l ≠ []) :
    a = x ∧ ∃ b, b ∈ adj a ∧ Walk adj b t l := by
  cases h with
  | single _ => exact absurd rfl hne
  | cons hb hw => exact ⟨rfl, _, hb, hw⟩

theorem Walk.suffixAt {adj : String → List String} {a t v : String} {s : List String} :
    ∀ {p : List String}, Walk adj a t (p ++ v :: s) → Walk adj v t (v :: s) := by
  intro p
  induction p generalizing a with
  | nil =>
    intro h
    have := h.head_eq
    simp at this
    exact this ▸ h
  | cons x p' ih =>
    intro h
    obtain ⟨hax, b, hb, hw⟩ := h.inv_cons (by simp)
    exact ih hw

theorem Walk.prefixAt {adj : String → List String} {a t v : String} {s : List String} :
    ∀ {p : List String}, Walk adj a t (p ++ v :: s) → Walk adj a v (p ++ [v]) := by
  intro p
  induction p generalizing a with
  | nil =>
    intro h
    have := h.head_eq
    simp at this
    exact this ▸ Walk.single v
  | cons x p' ih =>
    intro h
    obtain ⟨hax, b, hb, hw⟩ := h.inv_cons (by simp)
    subst hax
    exact Walk.cons hb (ih hw)

theorem not_nodup_decomp {l : List String} (h : ¬l.Nodup) :
    ∃ p v q r, l = p ++ v :: (q ++ v :: r) := by
  induction l with
  | nil => exact absurd List.nodup_nil h
  | cons x xs ih =>
    rw [List.nodup_cons] at h
    push_neg at h
    by_cases hx : x ∈ xs
    · obtain ⟨q, r, hqr⟩ := List.append_of_mem hx
      exact ⟨[], x, q, r, by rw [hqr]; rfl⟩
    · obtain ⟨p, v, q, r, hpqr⟩ := ih (h hx)
      exact ⟨x :: p, v, q, r, by rw [hpqr]; rfl⟩

theorem walk_dedup_bounded {adj : String → List String} :
    ∀ (n : Nat) {a t : String} {l : List String}, l.length ≤ n → Walk adj a t l →
      ∃ l', Walk adj a t l' ∧ l'.Nodup := by
  intro n
  induction n with
  | zero =>
    intro a t l hlen h
    have := h.length_pos
    omega
  | succ n ih =>
    intro a t l hlen h
    by_cases hn : l.Nodup
    · exact ⟨l, h, hn⟩
    · obtain ⟨p, v, q, r, hl⟩ := not_nodup_decomp hn
      subst hl
      have h1 : Walk adj a v (p ++ [v]) := Walk.prefixAt h
      have h2 : Walk adj v t (v :: r) := by
        have h' : Walk adj a t ((p ++ v :: q) ++ v :: r) := by
          have e : (p ++ v :: q) ++ v :: r = p ++ v :: (q ++ v :: r) := by simp
          rw [e]
          exact h
        exact Walk.suffixAt h'
      have h3 : Walk adj a t ((p ++ [v]) ++ r) := by
        have := Walk.overlap h1 h2
        simpa using this
      have hlen' : ((p ++ [v]) ++ r).length ≤ n := by
        simp at hlen ⊢
        omega
      exact ih hlen' h3

theorem Walk.dedup {adj : String → List String} {a t : String} {l : List String}
    (h : Walk adj a t l) : ∃ l', Walk adj a t l' ∧ l'.Nodup :=
  walk_dedup_bounded l.length le_rfl h

theorem Walk.unbounded {adj : String → List String} {c s : String} {q : List String}
    (hq : Walk adj c s q) (hc : c ∈ adj s) :
    ∀ k, ∃ t' w, Walk adj c t' w ∧ k ≤ w.length := by
  intro k
  induction k with
  | zero => exact ⟨s, q, hq, Nat.zero_le _⟩
  | succ k ih =>
    obtain ⟨t', w, hw, hk⟩ := ih
    refine ⟨t', q ++ w, Walk.glue hq hc hw, ?_⟩
    have := hq.length_pos
    simp
    omega

/-! ## optJoinMap lemmas -/

theorem optJoinMap_some_of_mem {f : String → Option (List (List String))}
    {L : List String} {ps : List (List String)} (h : optJoinMap f L = some ps)
    {c : String} (hc : c ∈ L) : ∃ sub, f c = some sub := by
  induction L generalizing ps with
  | nil => cases hc
  | cons x rest ih =>
    rcases hfx : f x with _ | sub <;> rcases hrest : optJoinMap f rest with _ | more <;>
      simp [optJoinMap, hfx, hrest] at h
    rcases List.mem_cons.mp hc with hcx | hcr
    · exact ⟨sub, hcx ▸ hfx⟩
    · exact ih hrest hcr

theorem optJoinMap_mem {f : String → Option (List (List String))}
    {L : List String} {ps : List (List String)} (h : optJoinMap f L = some ps)
    {p : List String} (hp : p ∈ ps) :
    ∃ c ∈ L, ∃ sub, f c = some sub ∧ p ∈ sub := by
  induction L generalizing ps with
  | nil =>
    simp [optJoinMap] at h
    subst h
    cases hp
  | cons x rest ih =>
    rcases hfx : f x with _ | sub <;> rcases hrest : optJoinMap f rest with _ | more <;>
      simp [optJoinMap, hfx, hrest] at h
    subst h
    rcases List.mem_append.mp hp with hps | hpm
    · exact ⟨x, List.mem_cons_self x rest, sub, hfx, hps⟩
    · obtain ⟨c, hc, sub', hsub', hp'⟩ := ih hrest hpm
      exact ⟨c, List.mem_cons_of_mem _ hc, sub', hsub', hp'⟩

theorem optJoinMap_mem_of {f : String → Option (List (List String))}
    {L : List String} {ps sub : List (List String)} {c : String} {p : List String}
    (h : optJoinMap f L = some ps) (hc : c ∈ L) (hfc : f c = some sub) (hp : p ∈ sub) :
    p ∈ ps := by
  induction L generalizing ps with
  | nil => cases hc
  | cons x rest ih =>
    rcases hfx : f x with _ | sub' <;> rcases hrest : optJoinMap f rest with _ | more <;>
      simp [optJoinMap, hfx, hrest] at h
    subst h
    rcases List.mem_cons.mp hc with hcx | hcr
    · subst hcx
      rw [hfx] at hfc
      injection hfc with hfc
      exact List.mem_append_left _ (hfc ▸ hp)
    · exact List.mem_append_right _ (ih hrest hcr)

theorem optJoinMap_total {f : String → Option (List (List String))} {L : List String}
    (h : ∀ c ∈ L, ∃ r, f c = some r) : ∃ ps, optJoinMap f L = some ps := by
  induction L with
  | nil => exact ⟨[], rfl⟩
  | cons x rest ih =>
    obtain ⟨sub, hsub⟩ := h x (List.mem_cons_self x rest)
    obtain ⟨more, hmore⟩ := ih (fun c hc => h c (List.mem_cons_of_mem _ hc))
    exact ⟨sub ++ more, by simp [optJoinMap, hsub, hmore]⟩

/-! ## C3: paths returned by `_find_paths_to_leaves` -/

/-- When the traversal completes within the given fuel, every walk out of
the start node is shorter than the fuel (completion bounds the reachable
walk lengths). -/
theorem findAllPathsToLeavesAux_walk_bound {adj : String → List String} :
    ∀ (fuel : Nat) {s : String} {pre : List String} {ps : List (List String)},
      findAllPathsToLeavesAux adj fuel s pre = some ps →
      ∀ {t : String} {w : List String}, Walk adj s t w → w.length ≤ fuel := by
  intro fuel
  induction fuel with
  | zero => intro s pre ps h; cases h
  | succ n ih =>
    intro s pre ps h t w hw
    cases hw with
    | single a => simp
    | cons hb hw' =>
      rename_i b l
      rcases hadj : adj s with _ | ⟨c, cs⟩
      · rw [hadj] at hb
        cases hb
      · simp only [findAllPathsToLeavesAux, hadj] at h
        rw [hadj] at hb
        obtain ⟨sub, hsub⟩ := optJoinMap_some_of_mem h hb
        have := ih hsub hw'
        simp
        omega

/-- Soundness of the leaf-path enumeration: when it completes, every
produced path extends the incoming path by a duplicate-free walk from the
start node to a leaf. -/
theorem findAllPathsToLeavesAux_sound {adj : String → List String} :
    ∀ (fuel : Nat) {s : String} {pre : List String} {ps : List (List String)},
      findAllPathsToLeavesAux adj fuel s pre = some ps →
      ∀ p ∈ ps, ∃ w t, p = pre ++ w ∧ Walk adj s t w ∧ w.Nodup ∧ adj t = [] := by
  intro fuel
  induction fuel with
  | zero => intro s pre ps h; cases h
  | succ n ih =>
    intro s pre ps h p hp
    rcases hadj : adj s with _ | ⟨c, cs⟩
    · simp only [findAllPathsToLeavesAux, hadj] at h
      by_cases hlen : 1 < (pre ++ [s]).length
      · rw [if_pos hlen] at h
        injection h with h
        subst h
        rcases List.mem_singleton.mp hp with rfl
        exact ⟨[s], s, rfl, Walk.single s, List.nodup_singleton s, hadj⟩
      · rw [if_neg hlen] at h
        injection h with h
        subst h
        cases hp
    · simp only [findAllPathsToLeavesAux, hadj] at h
      obtain ⟨c', hc', sub, hsub, hp'⟩ := optJoinMap_mem h hp
      have hc'adj : c' ∈ adj s := by rw [hadj]; exact hc'
      obtain ⟨w', t, hpw, hwalk, hnodup, hleaf⟩ := ih hsub p hp'
      refine ⟨s :: w', t, ?_, Walk.cons hc'adj hwalk, ?_, hleaf⟩
      · rw [hpw]
        simp
      · rw [List.nodup_cons]
        refine ⟨?_, hnodup⟩
        intro hs
        obtain ⟨u, v, huv⟩ := List.append_of_mem hs
        have hpref : Walk adj c' s (u ++ [s]) := Walk.prefixAt (huv ▸ hwalk)
        obtain ⟨t', w₂, hw₂, hlen₂⟩ := Walk.unbounded hpref hc'adj (n + 1)
        have := findAllPathsToLeavesAux_walk_bound n hsub hw₂
        omega

/-- C3: every path returned by `pathsToLeaves(X)` (when the enumeration
completes) ends at a node with zero outgoing edges and contains no repeated
script; and when `X` itself has no outgoing edges the result is the empty
list of paths, not an error. -/
theorem pathsToLeaves_spec :
    (∀ (adj : String → List String) (fuel : Nat) (X : String) (ps : List (List String)),
        findPathsToLeaves adj fuel X = some ps →
        ∀ p ∈ ps, p.Nodup ∧ ∃ t, p.getLast? = some t ∧ adj t = []) ∧
    (∀ (adj : String → List String) (fuel : Nat) (X : String),
        adj X = [] → findPathsToLeaves adj (fuel + 1) X = some []) := by
  constructor
  · intro adj fuel X ps h p hp
    obtain ⟨w, t, hpw, hwalk, hnodup, hleaf⟩ :=
      findAllPathsToLeavesAux_sound fuel h p hp
    rw [hpw]
    simp only [List.nil_append]
    exact ⟨hnodup, t, hwalk.getLast_eq, hleaf⟩
  · intro adj fuel X hX
    rw [findPathsToLeaves, findAllPathsToLeavesAux, hX]
    simp

/-- Witness for C3 on the spec's two-script example: the single returned
path `["main.m", "helper.m"]` is duplicate-free and ends at the leaf, and
querying the leaf itself yields the empty path list. -/
theorem pathsToLeaves_spec_witness :
    ((["main.m", "helper.m"] : List String).Nodup ∧
      ∃ t, (["main.m", "helper.m"] : List String).getLast? = some t ∧
        exampleCallGraph t = []) ∧
    findPathsToLeaves exampleCallGraph 2 "helper.m" = some [] :=
  ⟨pathsToLeaves_spec.1 exampleCallGraph 3 "main.m" [["main.m", "helper.m"]]
      (by decide) ["main.m", "helper.m"] (by decide),
   pathsToLeaves_spec.2 exampleCallGraph 1 "helper.m" (by decide)⟩

/-! ## C5: `_find_path_to_script` -/

theorem mem_dropLast_or_eq_of_getLast {l : List String} {t v : String}
    (hl : l.getLast? = some t) (hv : v ∈ l) : v ∈ l.dropLast ∨ v = t := by
  have hne : l ≠ [] := by
    intro h
    subst h
    cases hl
  have hsplit := List.dropLast_append_getLast hne
  rw [List.getLast?_eq_getLast l hne] at hl
  injection hl with hl
  rw [← hsplit] at hv
  rcases List.mem_append.mp hv with hv | hv
  · exact Or.inl hv
  · exact Or.inr (by rw [List.mem_singleton.mp hv, hl])

/-- Soundness of the simple-path enumeration of `_find_path_to_script`:
every produced path extends the incoming path by a duplicate-free walk from
start to target whose interior avoids the visited set. -/
theorem findAllPathsToTargetAux_sound {adj : String → List String} :
    ∀ (fuel : Nat) {visited path : List String} {s t : String} {ps : List (List String)},
      findAllPathsToTargetAux adj fuel visited path s t = some ps →
      ∀ p ∈ ps, ∃ w, p = path ++ w ∧ Walk adj s t w ∧ w.Nodup ∧
        ∀ v ∈ w.dropLast, v ∉ visited := by
  intro fuel
  induction fuel with
  | zero => intro visited path s t ps h; cases h
  | succ n ih =>
    intro visited path s t ps h p hp
    simp only [findAllPathsToTargetAux] at h
    by_cases hst : s = t
    · rw [if_pos hst] at h
      injection h with h
      subst h
      rcases List.mem_singleton.mp hp with rfl
      exact ⟨[s], rfl, hst ▸ Walk.single s, List.nodup_singleton s, by simp⟩
    · rw [if_neg hst] at h
      by_cases hsv : s ∈ visited
      · rw [if_pos hsv] at h
        injection h with h
        subst h
        cases hp
      · rw [if_neg hsv] at h
        obtain ⟨c, hc, sub, hsub, hp'⟩ := optJoinMap_mem h hp
        obtain ⟨w', hpw, hwalk, hnodup, hdrop⟩ := ih hsub p hp'
        have hwne : w' ≠ [] := hwalk.ne_nil
        have hdl : (s :: w').dropLast = s :: w'.dropLast := by
          cases w' with
          | nil => exact absurd rfl hwne
          | cons x xs => rfl
        refine ⟨s :: w', ?_, Walk.cons hc hwalk, ?_, ?_⟩
        · rw [hpw]
          simp
        · rw [List.nodup_cons]
          refine ⟨?_, hnodup⟩
          intro hs
          rcases mem_dropLast_or_eq_of_getLast hwalk.getLast_eq hs with hs' | hs'
          · exact hdrop s hs' (List.mem_append_right _ (List.mem_singleton.mpr rfl))
          · exact hst hs'
        · rw [hdl]
          intro v hv
          rcases List.mem_cons.mp hv with rfl | hv'
          · exact hsv
          · intro hvvis
            exact hdrop v hv' (List.mem_append_left _ hvvis)

/-- Completeness of the simple-path enumeration: every duplicate-free walk
from start to target whose interior avoids the visited set is produced
(provided the enumeration completed at all). -/
theorem findAllPathsToTargetAux_complete {adj : String → List String} :
    ∀ (fuel : Nat) {visited path : List String} {s t : String} {ps : List (List String)}
      {w : List String},
      findAllPathsToTargetAux adj fuel visited path s t = some ps →
      Walk adj s t w → w.Nodup → (∀ v ∈ w.dropLast, v ∉ visited) →
      (path ++ w) ∈ ps := by
  intro fuel
  induction fuel with
  | zero => intro visited path s t ps w h; cases h
  | succ n ih =>
    intro visited path s t ps w h hwalk hnodup hdrop
    simp only [findAllPathsToTargetAux] at h
    by_cases hst : s = t
    · rw [if_pos hst] at h
      injection h with h
      subst h
      cases hwalk with
      | single a => exact List.mem_singleton.mpr rfl
      | cons hb hl =>
        rename_i b l
        have : s ∈ l := hst ▸ hl.last_mem
        rw [List.nodup_cons] at hnodup
        exact absurd this hnodup.1
    · rw [if_neg hst] at h
      cases hwalk with
      | single a => exact absurd rfl hst
      | cons hb hl =>
        rename_i b l
        have hlne : l ≠ [] := hl.ne_nil
        have hdl : (s :: l).dropLast = s :: l.dropLast := by
          cases l with
          | nil => exact absurd rfl hlne
          | cons x xs => rfl
        have hsv : s ∉ visited := by
          apply hdrop
          rw [hdl]
          exact List.mem_cons_self _ _
        rw [if_neg hsv] at h
        obtain ⟨sub, hsub⟩ := optJoinMap_some_of_mem h hb
        rw [List.nodup_cons] at hnodup
        have hmem : ((path ++ [s]) ++ l) ∈ sub := by
          apply ih hsub hl hnodup.2
          intro v hv
          have hvl : v ∈ l := (List.dropLast_sublist _).subset hv
          intro hvvis
          rcases List.mem_append.mp hvvis with hvis | hvs
          · apply hdrop v _ hvis
            rw [hdl]
            exact List.mem_cons_of_mem _ hv
          · exact hnodup.1 (List.mem_singleton.mp hvs ▸ hvl)
        have : (path ++ s :: l) = ((path ++ [s]) ++ l) := by simp
        rw [this]
        exact optJoinMap_mem_of h hb hsub hmem

/-- With fuel exceeding the number of scripts, the enumeration of
`_find_path_to_script` always completes (the visited set grows along every
branch and stays inside the node set). -/
theorem findAllPathsToTargetAux_total {adj : String → List String} {N : List String}
    (hclosed : ∀ x ∈ N, ∀ c ∈ adj x, c ∈ N) :
    ∀ (fuel : Nat) {visited path : List String} {s t : String},
      s ∈ N → visited ⊆ N → visited.Nodup →
      N.length + 1 ≤ fuel + visited.length →
      ∃ ps, findAllPathsToTargetAux adj fuel visited path s t = some ps := by
  intro fuel
  induction fuel with
  | zero =>
    intro visited path s t hs hsub hnd hlen
    have := (hnd.subperm hsub).length_le
    omega
  | succ n ih =>
    intro visited path s t hs hsub hnd hlen
    by_cases hst : s = t
    · refine ⟨[path ++ [s]], ?_⟩
      simp only [findAllPathsToTargetAux]
      rw [if_pos hst]
    · by_cases hsv : s ∈ visited
      · refine ⟨[], ?_⟩
        simp only [findAllPathsToTargetAux]
        rw [if_neg hst, if_pos hsv]
      · have hstep : ∀ c ∈ adj s,
            ∃ r, findAllPathsToTargetAux adj n (visited ++ [s]) (path ++ [s]) c t = some r := by
          intro c hc
          apply ih (hclosed s hs c hc)
          · exact List.append_subset.mpr ⟨hsub, by simpa using hs⟩
          · simp [List.nodup_append, hnd, hsv]
          · simp
            omega
        obtain ⟨ps, hps⟩ := optJoinMap_total hstep
        refine ⟨ps, ?_⟩
        simp only [findAllPathsToTargetAux]
        rw [if_neg hst, if_neg hsv]
        exact hps

theorem foldl_min_spec :
    ∀ (rest : List (List String)) (b : List String),
      (rest.foldl (fun best q => if q.length < best.length then q else best) b) ∈ b :: rest ∧
      (rest.foldl (fun best q => if q.length < best.length then q else best) b).length ≤
        b.length ∧
      ∀ q ∈ rest,
        (rest.foldl (fun best q => if q.length < best.length then q else best) b).length ≤
          q.length := by
  intro rest
  induction rest with
  | nil => exact fun b => ⟨List.mem_singleton.mpr rfl, le_rfl, by simp⟩
  | cons c rest' ih =>
    intro b
    simp only [List.foldl_cons]
    obtain ⟨hmem, hle, hall⟩ := ih (if c.length < b.length then c else b)
    have hble : (if c.length < b.length then c else b).length ≤ b.length := by
      by_cases hc : c.length < b.length
      · rw [if_pos hc]; omega
      · rw [if_neg hc]
    have hcle : (if c.length < b.length then c else b).length ≤ c.length := by
      by_cases hc : c.length < b.length
      · rw [if_pos hc]
      · rw [if_neg hc]; omega
    refine ⟨?_, le_trans hle hble, ?_⟩
    · rcases List.mem_cons.mp hmem with hm | hm
      · rw [hm]
        by_cases hc : c.length < b.length
        · rw [if_pos hc]
          exact List.mem_cons_of_mem _ (List.mem_cons_self _ _)
        · rw [if_neg hc]
          exact List.mem_cons_self _ _
      · exact List.mem_cons_of_mem _ (List.mem_cons_of_mem _ hm)
    · intro q hq
      rcases List.mem_cons.mp hq with rfl | hq'
      · exact le_trans hle hcle
      · exact hall q hq'

theorem minByLen_mem {L : List (List String)} {p : List String}
    (h : minByLen L = some p) : p ∈ L := by
  cases L with
  | nil => cases h
  | cons p₀ rest =>
    injection h with h
    exact h ▸ (foldl_min_spec rest p₀).1

theorem minByLen_le {L : List (List String)} {p : List String}
    (h : minByLen L = some p) : ∀ q ∈ L, p.length ≤ q.length := by
  cases L with
  | nil => cases h
  | cons p₀ rest =>
    injection h with h
    intro q hq
    obtain ⟨_, hle, hall⟩ := foldl_min_spec rest p₀
    rcases List.mem_cons.mp hq with rfl | hq'
    · exact h ▸ hle
    · exact h ▸ hall q hq'

theorem minByLen_eq_none {L : List (List String)} :
    minByLen L = none ↔ L = [] := by
  cases L <;> simp [minByLen]

/-- C5: over any call graph whose nodes form the finite set `N` (closed
under edges), with fuel beyond the node count: `pathBetween(X, X)` returns
`[X]`; `pathBetween(X, Y)` computes a result `r` with `r = none` exactly
when `Y` is unreachable from `X`; and a returned path is a duplicate-free
walk from `X` to `Y` of minimum node count among all duplicate-free walks
from `X` to `Y`. -/
theorem pathBetween_spec :
    ∀ (adj : String → List String) (N : List String) (X Y : String) (fuel : Nat),
      (∀ x ∈ N, ∀ c ∈ adj x, c ∈ N) → X ∈ N → N.length + 1 ≤ fuel →
      findPathToScript adj fuel X X = some (some [X]) ∧
      ∃ r, findPathToScript adj fuel X Y = some r ∧
        (r = none ↔ ¬Reachable adj X Y) ∧
        ∀ p, r = some p → Walk adj X Y p ∧ p.Nodup ∧
          ∀ q, Walk adj X Y q → q.Nodup → p.length ≤ q.length := by
  intro adj N X Y fuel hclosed hX hfuel
  constructor
  · obtain ⟨m, rfl⟩ : ∃ m, fuel = m + 1 := ⟨fuel - 1, by omega⟩
    simp [findPathToScript, findAllPathsToScript, findAllPathsToTargetAux, minByLen]
  · have htotal : ∃ ps, findAllPathsToTargetAux adj fuel [] [] X Y = some ps :=
      findAllPathsToTargetAux_total hclosed fuel hX (by simp) List.nodup_nil
        (by simpa using hfuel)
    obtain ⟨allPaths, hall⟩ := htotal
    refine ⟨minByLen allPaths, ?_, ?_, ?_⟩
    · simp only [findPathToScript, findAllPathsToScript, hall]
    · constructor
      · intro hnone hr
        rw [minByLen_eq_none] at hnone
        obtain ⟨w, hw⟩ := hr
        obtain ⟨w', hw', hnodup⟩ := hw.dedup
        have hmem := findAllPathsToTargetAux_complete fuel hall hw' hnodup (by simp)
        rw [hnone] at hmem
        cases hmem
      · intro hunreach
        rw [minByLen_eq_none]
        by_contra hne
        obtain ⟨p, hp⟩ := List.exists_mem_of_ne_nil _ hne
        obtain ⟨w, hpw, hwalk, _, _⟩ := findAllPathsToTargetAux_sound fuel hall p hp
        exact hunreach ⟨w, hwalk⟩
    · intro p hp
      have hpmem := minByLen_mem hp
      obtain ⟨w, hpw, hwalk, hnodup, _⟩ := findAllPathsToTargetAux_sound fuel hall p hpmem
      have hpw' : p = w := by simpa using hpw
      subst hpw'
      refine ⟨hwalk, hnodup, ?_⟩
      intro q hq hqnodup
      have hqmem := findAllPathsToTargetAux_complete fuel hall hq hqnodup (by simp)
      exact minByLen_le hp q (by simpa using hqmem)

/-- Witness for C5 on the two-script example graph: the self query returns
the singleton path, and the query main.m → helper.m computes a result that
is `none` exactly when helper.m is unreachable. -/
theorem pathBetween_spec_witness :
    findPathToScript exampleCallGraph 3 "main.m" "main.m" = some (some ["main.m"]) ∧
    ∃ r, findPathToScript exampleCallGraph 3 "main.m" "helper.m" = some r ∧
      (r = none ↔ ¬Reachable exampleCallGraph "main.m" "helper.m") := by
  have h := pathBetween_spec exampleCallGraph ["main.m", "helper.m"] "main.m" "helper.m" 3
    (by decide) (by decide) (by decide)
  obtain ⟨hself, r, hr, hiff, _⟩ := h
  exact ⟨hself, r, hr, hiff⟩

/-! ## C7 and C4: internal (self-shadowing) definitions -/

/-- When the calling script itself is among a name's defining scripts with
an explicit definition, `get_function_definition_for_script` returns the
internal-definition result. -/
theorem getFunctionDefinitionForScript_internal {st : ParserSt}
    {funcName caller : String} {scripts : List String}
    (hfs : alookup st.functionScripts funcName = some scripts)
    (hmem : caller ∈ scripts)
    (hdef : alookup st.functionDefinitions (funcName, caller) = some DefType.explicitFunction) :
    getFunctionDefinitionForScript st funcName caller =
      ⟨true, scripts.length, some caller, some caller, scripts, true⟩ := by
  simp only [getFunctionDefinitionForScript, hfs]
  rw [if_pos ⟨hmem, hdef⟩]

/-- C7: for every (caller, name) pair where the caller script itself
contains an explicit definition of the name,
`definitionForCaller(name, caller)` returns the caller script with
isInternal = true, regardless of how any other defining script is ranked in
the name's list. -/
theorem definitionForCaller_internal_spec :
    ∀ (st : ParserSt) (funcName caller : String) (scripts : List String),
      alookup st.functionScripts funcName = some scripts →
      caller ∈ scripts →
      alookup st.functionDefinitions (funcName, caller) = some DefType.explicitFunction →
      (getFunctionDefinitionForScript st funcName caller).primaryScript = some caller ∧
      (getFunctionDefinitionForScript st funcName caller).isInternalDefinition = true ∧
      (getFunctionDefinitionForScript st funcName caller).found = true := by
  intro st funcName caller scripts hfs hmem hdef
  rw [getFunctionDefinitionForScript_internal hfs hmem hdef]
  exact ⟨rfl, rfl, rfl⟩

/-- Witness for C7: in `shadowingParserSt` the name `util` ranks `other.m`
first, yet the caller-context lookup from `caller.m` returns `caller.m`
itself as primary, flagged internal. -/
theorem definitionForCaller_internal_spec_witness :
    (getFunctionDefinitionForScript shadowingParserSt "util" "caller.m").primaryScript =
        some "caller.m" ∧
      (getFunctionDefinitionForScript shadowingParserSt "util" "caller.m").isInternalDefinition =
        true ∧
      (getFunctionDefinitionForScript shadowingParserSt "util" "caller.m").found = true :=
  definitionForCaller_internal_spec shadowingParserSt "util" "caller.m"
    ["other.m", "caller.m"] (by decide) (by decide) (by decide)

/-- C4: for every (callerScript, calledName) pair processed during
call-graph construction where the caller itself contains an explicit
definition of the name, no edge is added for that call — neither a
self-edge nor an edge to any other defining script — even when the primary
definition is a different script. -/
theorem edgeSuppressed_for_internal_definition :
    ∀ (st : ParserSt) (caller name : String) (scripts : List String),
      alookup st.functionScripts name = some scripts →
      caller ∈ scripts →
      alookup st.functionDefinitions (name, caller) = some DefType.explicitFunction →
      edgeForCall st caller name = none := by
  intro st caller name scripts hfs hmem hdef
  simp [edgeForCall, hfs, getFunctionDefinitionForScript_internal hfs hmem hdef, hmem]

/-- Witness for C4: in `shadowingParserSt` the primary definition of `util`
is `other.m`, different from the caller, yet the (caller.m, util) call adds
no edge at all. -/
theorem edgeSuppressed_for_internal_definition_witness :
    edgeForCall shadowingParserSt "caller.m" "util" = none ∧
    primaryDefinition shadowingParserSt "util" = some "other.m" :=
  ⟨edgeSuppressed_for_internal_definition shadowingParserSt "caller.m" "util"
      ["other.m", "caller.m"] (by decide) (by decide) (by decide),
    by decide⟩

/-! ## C10: the assigned-variable exclusion and the bare call shapes -/

/-- Counterexample to C10: `xy` is the left-hand side of an assignment on
the first line and reappears as a bare `xy;` on the next line, yet it is
extracted as a call — the bare shapes (rules 3 and 4) apply no
assigned-variable filter. -/
theorem assignedVar_bare_shape_counterexample :
    extractFunctionCalls "xy = 1\nxy;" = ["xy"] ∧
    matchAssignLhs (String.toList "xy = 1") = some "xy" ∧
    matchBareSemiCall (String.toList "xy;") = some "xy" := by
  decide

/-- C10 (amended): an identifier that is the left-hand side of an
assignment anywhere in the script is excluded from the parenthesized call
shapes — the whole-line `name(args)` shape and the assignment right-hand
side `name(` shape — while the bare `name;` / `name` shapes apply only the
keyword and length filters (see the counterexample). -/
theorem assignedVar_excluded_from_paren_shapes :
    ∀ (assigned : List String) (line : List Char) (n : String),
      n ∈ assigned → n ∉ parenCallsOfLine assigned line := by
  intro assigned line n hn
  unfold parenCallsOfLine
  cases hm : matchLineStartCall line with
  | some name =>
    show n ∉ (if name ∉ matlabKeywords ∧ name ∉ assigned ∧ 1 < name.length then [name] else [])
    by_cases hcond : name ∉ matlabKeywords ∧ name ∉ assigned ∧ 1 < name.length
    · rw [if_pos hcond]
      intro hmem
      exact hcond.2.1 (List.mem_singleton.mp hmem ▸ hn)
    · rw [if_neg hcond]
      exact List.not_mem_nil n
  | none =>
    show n ∉ List.filter (fun n => decide (n ∉ matlabKeywords ∧ n ∉ assigned ∧ 1 < n.length))
      (rhsCallNames line)
    intro hmem
    have h2 := (List.mem_filter.mp hmem).2
    simp only [decide_eq_true_eq] at h2
    exact h2.2.1 hn

/-- Witness for the amended C10: the assigned `xy` is not extracted from
the parenthesized line `xy(3);`. -/
theorem assignedVar_excluded_from_paren_shapes_witness :
    "xy" ∈ ["xy"] ∧ "xy" ∉ parenCallsOfLine ["xy"] (String.toList "xy(3);") :=
  ⟨by decide,
    assignedVar_excluded_from_paren_shapes ["xy"] (String.toList "xy(3);") "xy" (by decide)⟩

/-! ## C8: unknown entry scripts -/

/-- Counterexample to C8: an entry script absent from the scanned index
produces the ordinary empty dict `{}` (the same value space as a normal
result, with no error channel), not a structured ScriptNotFound error;
a known entry on the same state yields a normal chain dict. -/
theorem unknownEntry_empty_dict_counterexample :
    buildCallChains mainOnlyBuilderSt "ghost.m" 5 = some [] ∧
    alookup mainOnlyBuilderSt.scriptFunctions "ghost.m" = none ∧
    buildCallChains mainOnlyBuilderSt "main.m" 5 = some [("main.m", ["main.m"])] := by
  decide

/-- C8 (amended): for every query whose entry script is absent from the
scanned index, `build_call_chains` returns the silent empty dict (after a
logged error); no ScriptNotFound error value is surfaced to the caller
(`analyze_recursive_calls` lines 66-69 behave the same way). -/
theorem unknownEntry_returns_empty_dict :
    ∀ (st : BuilderSt) (entry : String) (fuel : Nat),
      alookup st.scriptFunctions entry = none →
      buildCallChains st entry fuel = some [] := by
  intro st entry fuel h
  simp [buildCallChains, h]

/-- Witness for the amended C8. -/
theorem unknownEntry_returns_empty_dict_witness :
    buildCallChains mainOnlyBuilderSt "ghost.m" 7 = some [] :=
  unknownEntry_returns_empty_dict mainOnlyBuilderSt "ghost.m" 7 (by decide)

/-! ## Association list lemmas -/

theorem alookup_aset {κ : Type} [DecidableEq κ] {α : Type} (d : List (κ × α)) (k : κ) (v : α)
    (k' : κ) : alookup (aset d k v) k' = if k = k' then some v else alookup d k' := by
  induction d with
  | nil => rfl
  | cons hd tl ih =>
    obtain ⟨k₀, v₀⟩ := hd
    by_cases h₀ : k₀ = k <;> by_cases hk' : k = k' <;> by_cases h₀' : k₀ = k' <;>
      simp_all [aset, alookup, ih]

theorem alookup_append {κ : Type} [DecidableEq κ] {α : Type} (d e : List (κ × α)) (k : κ) :
    alookup (d ++ e) k =
      match alookup d k with
      | some v => some v
      | none => alookup e k := by
  induction d with
  | nil => rfl
  | cons hd tl ih =>
    obtain ⟨k₀, v₀⟩ := hd
    by_cases h : k₀ = k <;> simp [alookup, h, ih]

theorem alookup_asetIfMissing_of_some {κ : Type} [DecidableEq κ] {α : Type}
    {d : List (κ × α)} {k' : κ} {w : α} (k : κ) (v : α) (h : alookup d k' = some w) :
    alookup (asetIfMissing d k v) k' = some w := by
  unfold asetIfMissing
  cases hd : alookup d k with
  | some _ => exact h
  | none =>
    rw [alookup_aset]
    by_cases hk : k = k'
    · rw [hk, h] at hd
      cases hd
    · rw [if_neg hk]
      exact h

theorem alookup_asetIfMissing_of_none {κ : Type} [DecidableEq κ] {α : Type}
    {d : List (κ × α)} {k' : κ} (k : κ) (v : α) (h : alookup d k' = none) :
    alookup (asetIfMissing d k v) k' = if k = k' then some v else none := by
  unfold asetIfMissing
  cases hd : alookup d k with
  | some w =>
    by_cases hk : k = k'
    · rw [hk, h] at hd
      cases hd
    · rw [if_neg hk]
      exact h
  | none =>
    rw [alookup_aset, h]

theorem alookup_map_entries (g : String → List String → List String)
    (d : List (String × List String)) (k : String) :
    alookup (d.map fun nl => (nl.1, g nl.1 nl.2)) k = (alookup d k).map (g k) := by
  induction d with
  | nil => rfl
  | cons hd tl ih =>
    obtain ⟨k₀, l₀⟩ := hd
    by_cases h : k₀ = k <;> simp [alookup, h, ih]

theorem foldlPreserve {β γ : Type} {P : β → Prop} {step : β → γ → β}
    (h : ∀ b g, P b → P (step b g)) : ∀ (L : List γ) (b : β), P b → P (L.foldl step b) := by
  intro L
  induction L with
  | nil => exact fun b hb => hb
  | cons g L' ih => exact fun b hb => ih (step b g) (h b g hb)

/-! ## `_select_by_matlab_path_rules` lemmas -/

theorem selectByMatlabPathRules_mem {paths : List (List String)} {scripts : List String}
    (h : scripts ≠ []) : selectByMatlabPathRules paths scripts ∈ scripts := by
  cases scripts with
  | nil => exact absurd rfl h
  | cons s rest =>
    have hperm := List.perm_insertionSort (keyLE paths) (s :: rest)
    cases hsort : List.insertionSort (keyLE paths) (s :: rest) with
    | nil =>
      have := hperm.length_eq
      rw [hsort] at this
      simp at this
    | cons x xs =>
      have hx : x ∈ List.insertionSort (keyLE paths) (s :: rest) := by
        rw [hsort]
        exact List.mem_cons_self _ _
      show (List.insertionSort (keyLE paths) (s :: rest)).headI ∈ s :: rest
      rw [hsort]
      exact hperm.subset hx

theorem selectByMatlabPathRules_perm_eq {paths : List (List String)} {l₁ l₂ : List String}
    (h : l₁.Perm l₂) :
    selectByMatlabPathRules paths l₁ = selectByMatlabPathRules paths l₂ := by
  cases l₁ with
  | nil =>
    have hl₂ : l₂ = [] := h.symm.eq_nil
    rw [hl₂]
  | cons s rest =>
    cases l₂ with
    | nil =>
      have := h.eq_nil
      cases this
    | cons s' rest' =>
      have hsorteq : List.insertionSort (keyLE paths) (s :: rest) =
          List.insertionSort (keyLE paths) (s' :: rest') :=
        List.eq_of_perm_of_sorted
          (((List.perm_insertionSort (keyLE paths) (s :: rest)).trans h).trans
            (List.perm_insertionSort (keyLE paths) (s' :: rest')).symm)
          (List.sorted_insertionSort (keyLE paths) (s :: rest))
          (List.sorted_insertionSort (keyLE paths) (s' :: rest'))
      show (List.insertionSort (keyLE paths) (s :: rest)).headI =
        (List.insertionSort (keyLE paths) (s' :: rest')).headI
      rw [hsorteq]

/-! ## Step-description lemmas for the scan pipeline -/

theorem parseAddDef_eq_new {st : ScanSt} {script n : String} {ty : DefType}
    (halo : alookup st.functionScripts n = none) :
    parseAddDef st script n ty =
      ⟨st.functionScripts ++ [(n, [script])], aset st.functionDefinitions (n, script) ty⟩ := by
  simp only [parseAddDef, halo]

theorem parseAddDef_eq_already {st : ScanSt} {script n : String} {ty : DefType}
    {scripts : List String} (halo : alookup st.functionScripts n = some scripts)
    (hmem : script ∈ scripts) :
    parseAddDef st script n ty =
      ⟨st.functionScripts, aset st.functionDefinitions (n, script) ty⟩ := by
  simp only [parseAddDef, halo, if_pos hmem]

theorem parseAddDef_eq_append {st : ScanSt} {script n : String} {ty : DefType}
    {scripts : List String} (halo : alookup st.functionScripts n = some scripts)
    (hmem : script ∉ scripts) :
    parseAddDef st script n ty =
      ⟨aset st.functionScripts n (scripts ++ [script]),
        aset st.functionDefinitions (n, script) ty⟩ := by
  simp only [parseAddDef, halo, if_neg hmem]

theorem forceAddDef_eq_new {st : ScanSt} {script : String}
    (halo : alookup st.functionScripts (stem script) = none) :
    forceAddDef st script =
      ⟨st.functionScripts ++ [(stem script, [script])],
        asetIfMissing st.functionDefinitions (stem script, script) DefType.scriptFile⟩ := by
  simp only [forceAddDef, halo]

theorem forceAddDef_eq_already {st : ScanSt} {script : String} {scripts : List String}
    (halo : alookup st.functionScripts (stem script) = some scripts)
    (hmem : script ∈ scripts) : forceAddDef st script = st := by
  simp only [forceAddDef, halo, if_pos hmem]

theorem forceAddDef_eq_append {st : ScanSt} {script : String} {scripts : List String}
    (halo : alookup st.functionScripts (stem script) = some scripts)
    (hmem : script ∉ scripts) :
    forceAddDef st script =
      ⟨aset st.functionScripts (stem script) (scripts ++ [script]),
        asetIfMissing st.functionDefinitions (stem script, script) DefType.scriptFile⟩ := by
  simp only [forceAddDef, halo, if_neg hmem]

theorem alookup_mem {κ : Type} [DecidableEq κ] {α : Type} {d : List (κ × α)} {k : κ} {v : α}
    (h : alookup d k = some v) : (k, v) ∈ d := by
  induction d with
  | nil => cases h
  | cons hd tl ih =>
    obtain ⟨k₀, v₀⟩ := hd
    by_cases hk : k₀ = k
    · subst hk
      rw [alookup, if_pos rfl] at h
      injection h with h
      subst h
      exact List.mem_cons_self _ _
    · rw [alookup, if_neg hk] at h
      exact List.mem_cons_of_mem _ (ih h)

theorem mem_aset {κ : Type} [DecidableEq κ] {α : Type} {d : List (κ × α)} {k : κ} {v : α}
    {p : κ × α} (h : p ∈ aset d k v) : p ∈ d ∨ p = (k, v) := by
  induction d with
  | nil =>
    rcases List.mem_singleton.mp h with rfl
    exact Or.inr rfl
  | cons hd tl ih =>
    obtain ⟨k₀, v₀⟩ := hd
    by_cases hk : k₀ = k
    · rw [aset, if_pos hk] at h
      rcases List.mem_cons.mp h with rfl | h'
      · exact Or.inr rfl
      · exact Or.inl (List.mem_cons_of_mem _ h')
    · rw [aset, if_neg hk] at h
      rcases List.mem_cons.mp h with rfl | h'
      · exact Or.inl (List.mem_cons_self _ _)
      · rcases ih h' with h'' | h''
        · exact Or.inl (List.mem_cons_of_mem _ h'')
        · exact Or.inr h''

/-! ## Non-empty value lists (C6, first invariant) -/

/-- Every list stored in `function_scripts` is non-empty. -/
def ValsNeNil (d : List (String × List String)) : Prop :=
  ∀ p ∈ d, p.2 ≠ ([] : List String)

theorem valsNeNil_parseAddDef {st : ScanSt} {script n : String} {ty : DefType}
    (h : ValsNeNil st.functionScripts) :
    ValsNeNil (parseAddDef st script n ty).functionScripts := by
  cases halo : alookup st.functionScripts n with
  | none =>
    rw [parseAddDef_eq_new halo]
    intro p hp
    rcases List.mem_append.mp hp with hp' | hp'
    · exact h p hp'
    · rcases List.mem_singleton.mp hp' with rfl
      simp
  | some scripts =>
    by_cases hmem : script ∈ scripts
    · rw [parseAddDef_eq_already halo hmem]
      exact h
    · rw [parseAddDef_eq_append halo hmem]
      intro p hp
      rcases mem_aset hp with hp' | hp'
      · exact h p hp'
      · rw [hp']
        simp

theorem valsNeNil_forceAddDef {st : ScanSt} {script : String}
    (h : ValsNeNil st.functionScripts) :
    ValsNeNil (forceAddDef st script).functionScripts := by
  cases halo : alookup st.functionScripts (stem script) with
  | none =>
    rw [forceAddDef_eq_new halo]
    intro p hp
    rcases List.mem_append.mp hp with hp' | hp'
    · exact h p hp'
    · rcases List.mem_singleton.mp hp' with rfl
      simp
  | some scripts =>
    by_cases hmem : script ∈ scripts
    · rw [forceAddDef_eq_already halo hmem]
      exact h
    · rw [forceAddDef_eq_append halo hmem]
      intro p hp
      rcases mem_aset hp with hp' | hp'
      · exact h p hp'
      · rw [hp']
        simp

theorem valsNeNil_scanPre (files : List SourceFile) (fmOrder : List String) :
    ValsNeNil (scanPre files fmOrder).functionScripts := by
  unfold scanPre
  refine @foldlPreserve ScanSt String (fun st => ValsNeNil st.functionScripts) forceAddDef
    (fun st s hst => valsNeNil_forceAddDef hst) fmOrder _ ?_
  refine @foldlPreserve ScanSt SourceFile (fun st => ValsNeNil st.functionScripts) parseFile
    ?_ files ⟨[], []⟩ ?_
  · intro st f hst
    unfold parseFile
    exact @foldlPreserve ScanSt String (fun st => ValsNeNil st.functionScripts)
      (fun st n => parseAddDef st f.path n (parseDefType f))
      (fun st n hst => valsNeNil_parseAddDef hst) (parseNames f) st hst
  · intro p hp
    cases hp

/-! ## C6: ranking after `_establish_matlab_syntax_relationships` -/

/-- When some script in the list has a recorded explicit definition of the
name, the determined primary is such a script. -/
theorem determinePrimary_mem_explicit {defs : List ((String × String) × DefType)}
    {paths : List (List String)} {name : String} {scripts : List String} {s : String}
    (hs : s ∈ scripts) (hdef : alookup defs (name, s) = some DefType.explicitFunction) :
    determinePrimaryByMatlabRules defs paths name scripts ∈ scripts ∧
      alookup defs (name, determinePrimaryByMatlabRules defs paths name scripts) =
        some DefType.explicitFunction := by
  have hsx : s ∈ scripts.filter
      (fun s => alookup defs (name, s) = some DefType.explicitFunction) := by
    rw [List.mem_filter]
    exact ⟨hs, by simp [hdef]⟩
  have hexne : scripts.filter
      (fun s => alookup defs (name, s) = some DefType.explicitFunction) ≠ [] :=
    List.ne_nil_of_mem hsx
  have hempty : (scripts.filter
      (fun s => alookup defs (name, s) = some DefType.explicitFunction)).isEmpty = false := by
    rw [List.isEmpty_eq_false]
    exact hexne
  unfold determinePrimaryByMatlabRules
  rw [hempty]
  simp only [Bool.false_eq_true, if_false]
  have hmem := @selectByMatlabPathRules_mem paths _ hexne
  have hmf := List.mem_filter.mp hmem
  refine ⟨hmf.1, ?_⟩
  simpa using hmf.2

theorem establishEntryScripts_ne_nil {defs : List ((String × String) × DefType)}
    {paths : List (List String)} {name : String} {scripts : List String}
    (h : scripts ≠ []) : establishEntryScripts defs paths name scripts ≠ [] := by
  unfold establishEntryScripts
  split_ifs <;> simp [h]

/-- Whenever a list member has a recorded explicit definition, the head of
the list after the per-name reordering is a script with a recorded explicit
definition. -/
theorem establishEntryScripts_head_explicit :
    ∀ (defs : List ((String × String) × DefType)) (paths : List (List String))
      (name : String) (scripts : List String) (s : String),
      s ∈ scripts → alookup defs (name, s) = some DefType.explicitFunction →
      ∃ p, (establishEntryScripts defs paths name scripts).head? = some p ∧
        alookup defs (name, p) = some DefType.explicitFunction := by
  intro defs paths name scripts s hs hdef
  unfold establishEntryScripts
  by_cases hlen : 1 < scripts.length
  · rw [if_pos hlen]
    obtain ⟨hpm, hpd⟩ := determinePrimary_mem_explicit hs hdef
    rw [if_pos hpm]
    exact ⟨_, rfl, hpd⟩
  · rw [if_neg hlen]
    cases scripts with
    | nil => cases hs
    | cons x rest =>
      cases rest with
      | nil =>
        rcases List.mem_singleton.mp hs with rfl
        exact ⟨s, rfl, hdef⟩
      | cons y rest' =>
        exfalso
        apply hlen
        simp

/-- After a whole scan, every name's script list is non-empty. -/
theorem scanProject_vals_ne_nil :
    ∀ (files : List SourceFile) (fmOrder : List String) (name : String) (l : List String),
      alookup (scanProject files fmOrder).functionScripts name = some l → l ≠ [] := by
  intro files fmOrder name l hl
  unfold scanProject establishMatlabSyntaxRelationships at hl
  rw [alookup_map_entries] at hl
  cases h0 : alookup (scanPre files fmOrder).functionScripts name with
  | none =>
    rw [h0] at hl
    cases hl
  | some l₀ =>
    rw [h0] at hl
    injection hl with hl
    have hne : l₀ ≠ [] := valsNeNil_scanPre files fmOrder (name, l₀) (alookup_mem h0)
    exact hl ▸ establishEntryScripts_ne_nil hne

/-- Counterexample to C6: for the name `f` defined implicitly by `f.m` and
explicitly by `y.m` and `z.m` (all in the project root, parse order
f.m, y.m, z.m), the established order is `[y.m, f.m, z.m]`: the implicit
definition `f.m` is ranked above the explicit definition `z.m`. -/
theorem implicitRankedAboveExplicit_counterexample :
    establishEntryScripts multiDefDefs rootOnlyPaths "f" ["f.m", "y.m", "z.m"] =
        ["y.m", "f.m", "z.m"] ∧
      alookup multiDefDefs ("f", "f.m") = some DefType.scriptFile ∧
      alookup multiDefDefs ("f", "z.m") = some DefType.explicitFunction ∧
      List.indexOf "f.m" ["y.m", "f.m", "z.m"] < List.indexOf "z.m" ["y.m", "f.m", "z.m"] := by
  decide

/-- C6 (amended): every observed name's list of defining scripts is
non-empty, and the primary definition (index 0) after resolution is an
explicit one whenever at least one recorded explicit definition exists;
the reordering moves only the primary to the front, so implicit
(script-file) definitions can remain ranked above non-primary explicit
ones (see the counterexample). -/
theorem nameIndex_invariants_amended :
    (∀ (files : List SourceFile) (fmOrder : List String) (name : String) (l : List String),
        alookup (scanProject files fmOrder).functionScripts name = some l → l ≠ []) ∧
    (∀ (defs : List ((String × String) × DefType)) (paths : List (List String))
        (name : String) (scripts : List String) (s : String),
        s ∈ scripts → alookup defs (name, s) = some DefType.explicitFunction →
        ∃ p, (establishEntryScripts defs paths name scripts).head? = some p ∧
          alookup defs (name, p) = some DefType.explicitFunction) :=
  ⟨scanProject_vals_ne_nil, establishEntryScripts_head_explicit⟩

/-- Witness for the amended C6: on the two-file project the list of
`foo`-defining scripts is the non-empty `["a.m"]`, and on the
multi-definition state the established head is an explicit definition. -/
theorem nameIndex_invariants_amended_witness :
    (["a.m"] : List String) ≠ [] ∧
    ∃ p, (establishEntryScripts multiDefDefs rootOnlyPaths "f" ["f.m", "y.m", "z.m"]).head? =
        some p ∧ alookup multiDefDefs ("f", p) = some DefType.explicitFunction :=
  ⟨nameIndex_invariants_amended.1 twoFileProject ["a.m", "b.m"] "foo" ["a.m"] (by decide),
   nameIndex_invariants_amended.2 multiDefDefs rootOnlyPaths "f" ["f.m", "y.m", "z.m"] "z.m"
     (by decide) (by decide)⟩

/-! ## C9: scan-order independence

The two mutating passes of the scan touch `function_scripts` through a
single pattern (create the name's list or append the script if missing).
`addScript` names that pattern; the characterization lemmas below describe
membership in the resulting index, the duplicate-freeness of its lists, and
the recorded definition types, all as functions of the *set* of files. -/

/-- The `function_scripts` update shared by `_parse_script_file` and
`_force_map_all_script_names`. -/
def addScript (d : List (String × List String)) (n script : String) :
    List (String × List String) :=
  match alookup d n with
  | none => d ++ [(n, [script])]
  | some scripts => if script ∈ scripts then d else aset d n (scripts ++ [script])

theorem parseAddDef_fs {st : ScanSt} {script n : String} {ty : DefType} :
    (parseAddDef st script n ty).functionScripts = addScript st.functionScripts n script := by
  cases halo : alookup st.functionScripts n with
  | none => rw [parseAddDef_eq_new halo, addScript, halo]
  | some scripts =>
    by_cases hmem : script ∈ scripts
    · rw [parseAddDef_eq_already halo hmem, addScript, halo]
      simp [hmem]
    · rw [parseAddDef_eq_append halo hmem, addScript, halo]
      simp [hmem]

theorem forceAddDef_fs {st : ScanSt} {script : String} :
    (forceAddDef st script).functionScripts =
      addScript st.functionScripts (stem script) script := by
  cases halo : alookup st.functionScripts (stem script) with
  | none => rw [forceAddDef_eq_new halo, addScript, halo]
  | some scripts =>
    by_cases hmem : script ∈ scripts
    · rw [forceAddDef_eq_already halo hmem, addScript, halo]
      simp [hmem]
    · rw [forceAddDef_eq_append halo hmem, addScript, halo]
      simp [hmem]
theorem addScript_eq_new {d : List (String × List String)} {n script : String}
    (halo : alookup d n = none) : addScript d n script = d ++ [(n, [script])] := by
  simp only [addScript, halo]

theorem addScript_eq_already {d : List (String × List String)} {n script : String}
    {scripts : List String} (halo : alookup d n = some scripts) (hmem : script ∈ scripts) :
    addScript d n script = d := by
  simp only [addScript, halo, if_pos hmem]

theorem addScript_eq_append {d : List (String × List String)} {n script : String}
    {scripts : List String} (halo : alookup d n = some scripts) (hmem : script ∉ scripts) :
    addScript d n script = aset d n (scripts ++ [script]) := by
  simp only [addScript, halo, if_neg hmem]

/-- `s` is recorded as one of `name`'s defining scripts. -/
def memFS (d : List (String × List String)) (name s : String) : Prop :=
  ∃ l, alookup d name = some l ∧ s ∈ l

theorem memFS_addScript {d : List (String × List String)} {n script name s : String} :
    memFS (addScript d n script) name s ↔ memFS d name s ∨ (name = n ∧ s = script) := by
  cases halo : alookup d n with
  | none =>
    rw [addScript_eq_new halo]
    constructor
    · rintro ⟨l, hl, hsl⟩
      rw [alookup_append] at hl
      cases h2 : alookup d name with
      | some l₀ =>
        simp only [h2] at hl
        injection hl with hl
        exact Or.inl ⟨l₀, h2, hl ▸ hsl⟩
      | none =>
        simp only [h2] at hl
        by_cases hn : n = name
        · rw [alookup, if_pos hn] at hl
          injection hl with hl
          subst hl
          exact Or.inr ⟨hn.symm, List.mem_singleton.mp hsl⟩
        · rw [alookup, if_neg hn] at hl
          cases hl
    · rintro (⟨l, hl, hsl⟩ | ⟨h1, h2⟩)
      · refine ⟨l, ?_, hsl⟩
        rw [alookup_append]
        simp only [hl]
      · subst h1
        subst h2
        refine ⟨[s], ?_, List.mem_singleton.mpr rfl⟩
        rw [alookup_append]
        simp only [halo]
        rw [alookup, if_pos rfl]
  | some scripts =>
    by_cases hmem : script ∈ scripts
    · rw [addScript_eq_already halo hmem]
      constructor
      · exact Or.inl
      · rintro (h | ⟨h1, h2⟩)
        · exact h
        · subst h1
          subst h2
          exact ⟨scripts, halo, hmem⟩
    · rw [addScript_eq_append halo hmem]
      constructor
      · rintro ⟨l, hl, hsl⟩
        rw [alookup_aset] at hl
        by_cases hn : n = name
        · rw [if_pos hn] at hl
          injection hl with hl
          subst hl
          rcases List.mem_append.mp hsl with hs' | hs'
          · exact Or.inl ⟨scripts, hn ▸ halo, hs'⟩
          · exact Or.inr ⟨hn.symm, List.mem_singleton.mp hs'⟩
        · rw [if_neg hn] at hl
          exact Or.inl ⟨l, hl, hsl⟩
      · rintro (⟨l, hl, hsl⟩ | ⟨h1, h2⟩)
        · by_cases hn : n = name
          · refine ⟨scripts ++ [script], ?_, ?_⟩
            · rw [alookup_aset, if_pos hn]
            · subst hn
              rw [halo] at hl
              injection hl with hl
              exact List.mem_append_left _ (hl ▸ hsl)
          · refine ⟨l, ?_, hsl⟩
            rw [alookup_aset, if_neg hn]
            exact hl
        · subst h1
          subst h2
          refine ⟨scripts ++ [s], ?_, List.mem_append_right _ (List.mem_singleton.mpr rfl)⟩
          rw [alookup_aset, if_pos rfl]

/-- Every list stored in the index is duplicate-free. -/
def NodupVals (d : List (String × List String)) : Prop :=
  ∀ p ∈ d, p.2.Nodup

theorem nodupVals_addScript {d : List (String × List String)} {n script : String}
    (h : NodupVals d) : NodupVals (addScript d n script) := by
  cases halo : alookup d n with
  | none =>
    rw [addScript_eq_new halo]
    intro p hp
    rcases List.mem_append.mp hp with hp' | hp'
    · exact h p hp'
    · rcases List.mem_singleton.mp hp' with rfl
      simp
  | some scripts =>
    by_cases hmem : script ∈ scripts
    · rw [addScript_eq_already halo hmem]
      exact h
    · rw [addScript_eq_append halo hmem]
      intro p hp
      rcases mem_aset hp with hp' | hp'
      · exact h p hp'
      · rw [hp']
        have := h (n, scripts) (alookup_mem halo)
        simp [List.nodup_append, this, hmem]

/-- In a `ValsNeNil` index, a name has no entry exactly when no script is
recorded for it. -/
theorem alookup_none_iff_no_memFS {d : List (String × List String)} {name : String}
    (hnn : ValsNeNil d) : alookup d name = none ↔ ¬∃ s, memFS d name s := by
  constructor
  · rintro h ⟨s, l, hl, _⟩
    rw [h] at hl
    cases hl
  · intro h
    cases halo : alookup d name with
    | none => rfl
    | some l =>
      exfalso
      apply h
      have hne : l ≠ [] := hnn (name, l) (alookup_mem halo)
      obtain ⟨s, hs⟩ := List.exists_mem_of_ne_nil l hne
      exact ⟨s, l, halo, hs⟩

theorem memFS_parseFold :
    ∀ (L : List String) (st : ScanSt) {p : String} {ty : DefType} {name s : String},
      memFS ((L.foldl (fun st n => parseAddDef st p n ty) st)).functionScripts name s ↔
        memFS st.functionScripts name s ∨ (name ∈ L ∧ s = p) := by
  intro L
  induction L with
  | nil =>
    intro st p ty name s
    simp
  | cons n₀ L' ih =>
    intro st p ty name s
    rw [List.foldl_cons, ih, parseAddDef_fs, memFS_addScript]
    simp only [List.mem_cons, or_and_right, or_assoc]

theorem memFS_parseFile {st : ScanSt} {f : SourceFile} {name s : String} :
    memFS (parseFile st f).functionScripts name s ↔
      memFS st.functionScripts name s ∨ (name ∈ parseNames f ∧ s = f.path) := by
  unfold parseFile
  exact memFS_parseFold (parseNames f) st

theorem memFS_filesFold :
    ∀ (files : List SourceFile) (st : ScanSt) {name s : String},
      memFS ((files.foldl parseFile st)).functionScripts name s ↔
        memFS st.functionScripts name s ∨ ∃ f ∈ files, f.path = s ∧ name ∈ parseNames f := by
  intro files
  induction files with
  | nil =>
    intro st name s
    simp
  | cons g files' ih =>
    intro st name s
    rw [List.foldl_cons, ih, memFS_parseFile]
    constructor
    · rintro ((h | ⟨hn, hs⟩) | ⟨f, hf, hfs, hfn⟩)
      · exact Or.inl h
      · exact Or.inr ⟨g, List.mem_cons_self _ _, hs.symm, hn⟩
      · exact Or.inr ⟨f, List.mem_cons_of_mem _ hf, hfs, hfn⟩
    · rintro (h | ⟨f, hf, hfs, hfn⟩)
      · exact Or.inl (Or.inl h)
      · rcases List.mem_cons.mp hf with rfl | hf'
        · exact Or.inl (Or.inr ⟨hfn, hfs.symm⟩)
        · exact Or.inr ⟨f, hf', hfs, hfn⟩

theorem memFS_fmFold :
    ∀ (fm : List String) (st : ScanSt) {name s : String},
      memFS ((fm.foldl forceAddDef st)).functionScripts name s ↔
        memFS st.functionScripts name s ∨ (s ∈ fm ∧ name = stem s) := by
  intro fm
  induction fm with
  | nil =>
    intro st name s
    simp
  | cons x fm' ih =>
    intro st name s
    rw [List.foldl_cons, ih, forceAddDef_fs, memFS_addScript]
    constructor
    · rintro ((h | ⟨hn, hs⟩) | ⟨hs, hn⟩)
      · exact Or.inl h
      · subst hs
        exact Or.inr ⟨List.mem_cons_self _ _, hn⟩
      · exact Or.inr ⟨List.mem_cons_of_mem _ hs, hn⟩
    · rintro (h | ⟨hs, hn⟩)
      · exact Or.inl (Or.inl h)
      · rcases List.mem_cons.mp hs with rfl | hs'
        · exact Or.inl (Or.inr ⟨hn, rfl⟩)
        · exact Or.inr ⟨hs', hn⟩

/-- Which scripts a scan records for a name, as a function of the *set* of
files and of the *set* of force-mapped paths. -/
theorem memFS_scanPre {files : List SourceFile} {fm : List String} {name s : String} :
    memFS (scanPre files fm).functionScripts name s ↔
      (∃ f ∈ files, f.path = s ∧ name ∈ parseNames f) ∨ (s ∈ fm ∧ name = stem s) := by
  unfold scanPre
  rw [memFS_fmFold, memFS_filesFold]
  have hempty : ¬memFS (⟨[], []⟩ : ScanSt).functionScripts name s := by
    rintro ⟨l, hl, _⟩
    cases hl
  constructor
  · rintro ((h0 | hex) | hfm)
    · exact absurd h0 hempty
    · exact Or.inl hex
    · exact Or.inr hfm
  · rintro (hex | hfm)
    · exact Or.inl (Or.inr hex)
    · exact Or.inr hfm

theorem nodupVals_scanPre (files : List SourceFile) (fmOrder : List String) :
    NodupVals (scanPre files fmOrder).functionScripts := by
  unfold scanPre
  refine @foldlPreserve ScanSt String (fun st => NodupVals st.functionScripts) forceAddDef
    (fun st x hst => by
      show NodupVals (forceAddDef st x).functionScripts
      rw [forceAddDef_fs]
      exact nodupVals_addScript hst)
    fmOrder _ ?_
  refine @foldlPreserve ScanSt SourceFile (fun st => NodupVals st.functionScripts) parseFile
    ?_ files ⟨[], []⟩ ?_
  · intro st f hst
    unfold parseFile
    exact @foldlPreserve ScanSt String (fun st => NodupVals st.functionScripts)
      (fun st n => parseAddDef st f.path n (parseDefType f))
      (fun st n hst => by
        show NodupVals (parseAddDef st f.path n (parseDefType f)).functionScripts
        rw [parseAddDef_fs]
        exact nodupVals_addScript hst)
      (parseNames f) st hst
  · intro p hp
    cases hp

theorem parseAddDef_defs {st : ScanSt} {script n : String} {ty : DefType} :
    (parseAddDef st script n ty).functionDefinitions =
      aset st.functionDefinitions (n, script) ty := by
  cases halo : alookup st.functionScripts n with
  | none => rw [parseAddDef_eq_new halo]
  | some scripts =>
    by_cases hmem : script ∈ scripts
    · rw [parseAddDef_eq_already halo hmem]
    · rw [parseAddDef_eq_append halo hmem]

theorem parseFold_defs :
    ∀ (L : List String) (st : ScanSt) {p : String} {ty : DefType} {name s : String},
      alookup ((L.foldl (fun st n => parseAddDef st p n ty) st)).functionDefinitions (name, s) =
        if name ∈ L ∧ s = p then some ty
        else alookup st.functionDefinitions (name, s) := by
  intro L
  induction L with
  | nil =>
    intro st p ty name s
    simp
  | cons n₀ L' ih =>
    intro st p ty name s
    rw [List.foldl_cons, ih]
    by_cases h1 : name ∈ L' ∧ s = p
    · rw [if_pos h1, if_pos ⟨List.mem_cons_of_mem _ h1.1, h1.2⟩]
    · rw [if_neg h1]
      show alookup (parseAddDef st p n₀ ty).functionDefinitions (name, s) = _
      rw [parseAddDef_defs, alookup_aset]
      by_cases h2 : (n₀, p) = (name, s)
      · injection h2 with h2a h2b
        rw [if_pos (by rw [h2a, h2b])]
        rw [if_pos ⟨by rw [← h2a]; exact List.mem_cons_self _ _, h2b.symm⟩]
      · rw [if_neg h2]
        have hcond : ¬(name ∈ n₀ :: L' ∧ s = p) := by
          rintro ⟨hmem, hp⟩
          rcases List.mem_cons.mp hmem with rfl | hmem'
          · exact h2 (by rw [hp])
          · exact h1 ⟨hmem', hp⟩
        rw [if_neg hcond]

theorem parseFile_defs {st : ScanSt} {f : SourceFile} {name s : String} :
    alookup (parseFile st f).functionDefinitions (name, s) =
      if name ∈ parseNames f ∧ s = f.path then some (parseDefType f)
      else alookup st.functionDefinitions (name, s) := by
  unfold parseFile
  exact parseFold_defs (parseNames f) st

/-- The definition type the per-file parsing pass records for `(name, s)`,
as a function of the file set (meaningful when file paths are distinct). -/
def parseDefSpec (files : List SourceFile) (name s : String) : Option DefType :=
  match files.find? (fun f => f.path == s) with
  | some f => if name ∈ parseNames f then some (parseDefType f) else none
  | none => none

theorem filesFold_defs :
    ∀ (files : List SourceFile) (st : ScanSt) {name s : String},
      (files.map SourceFile.path).Nodup →
      alookup ((files.foldl parseFile st)).functionDefinitions (name, s) =
        match parseDefSpec files name s with
        | some ty => some ty
        | none => alookup st.functionDefinitions (name, s) := by
  intro files
  induction files with
  | nil =>
    intro st name s _
    simp [parseDefSpec]
  | cons g rest ih =>
    intro st name s hnodup
    rw [List.map_cons, List.nodup_cons] at hnodup
    rw [List.foldl_cons, ih _ hnodup.2]
    by_cases hgs : g.path = s
    · have hfind : (g :: rest).find? (fun f => f.path == s) = some g :=
        List.find?_cons_of_pos _ (by simp [hgs])
      have hrest : parseDefSpec rest name s = none := by
        unfold parseDefSpec
        have : rest.find? (fun f => f.path == s) = none := by
          rw [List.find?_eq_none]
          intro f hf
          simp only [beq_iff_eq]
          intro hfs
          apply hnodup.1
          rw [hgs, ← hfs]
          exact List.mem_map_of_mem _ hf
        rw [this]
      have hspecg : parseDefSpec (g :: rest) name s =
          if name ∈ parseNames g then some (parseDefType g) else none := by
        unfold parseDefSpec
        rw [hfind]
      by_cases hname : name ∈ parseNames g
      · simp [hrest, hspecg, parseFile_defs, hname, hgs]
      · simp [hrest, hspecg, parseFile_defs, hname, hgs]
    · have hfind : (g :: rest).find? (fun f => f.path == s) =
          rest.find? (fun f => f.path == s) :=
        List.find?_cons_of_neg _ (by simp [hgs])
      have hspecs : parseDefSpec (g :: rest) name s = parseDefSpec rest name s := by
        unfold parseDefSpec
        rw [hfind]
      rw [hspecs]
      cases hspec : parseDefSpec rest name s with
      | some ty => rfl
      | none =>
        have hsg : ¬s = g.path := fun h => hgs h.symm
        show alookup (parseFile st g).functionDefinitions (name, s) = _
        rw [parseFile_defs]
        rw [if_neg (by rintro ⟨_, hs⟩; exact hsg hs)]

/-- Every recorded script has a recorded definition detail. -/
def CoversDefs (st : ScanSt) : Prop :=
  ∀ name s, memFS st.functionScripts name s →
    alookup st.functionDefinitions (name, s) ≠ none

theorem coversDefs_parseAddDef {st : ScanSt} {script n : String} {ty : DefType}
    (hcov : CoversDefs st) : CoversDefs (parseAddDef st script n ty) := by
  intro name s hm
  rw [parseAddDef_fs] at hm
  rw [parseAddDef_defs, alookup_aset]
  by_cases hk : (n, script) = (name, s)
  · rw [if_pos hk]
    simp
  · rw [if_neg hk]
    rcases memFS_addScript.mp hm with hold | ⟨h1, h2⟩
    · exact hcov name s hold
    · exact absurd (by rw [h1, h2]) hk

theorem forceAddDef_defs_lookup {st : ScanSt} {script : String} {name s : String}
    (hcov : CoversDefs st) :
    alookup (forceAddDef st script).functionDefinitions (name, s) =
      match alookup st.functionDefinitions (name, s) with
      | some ty => some ty
      | none =>
        if s = script ∧ name = stem script then some DefType.scriptFile else none := by
  cases halo : alookup st.functionScripts (stem script) with
  | none =>
    rw [forceAddDef_eq_new halo]
    cases hD : alookup st.functionDefinitions (name, s) with
    | some w => exact alookup_asetIfMissing_of_some _ _ hD
    | none =>
      rw [alookup_asetIfMissing_of_none _ _ hD]
      by_cases hk : ((stem script, script) : String × String) = (name, s)
      · have hka : stem script = name := congrArg Prod.fst hk
        have hkb : script = s := congrArg Prod.snd hk
        rw [if_pos hk, if_pos ⟨hkb.symm, hka.symm⟩]
      · rw [if_neg hk, if_neg (by rintro ⟨h1, h2⟩; exact hk (by rw [h1, h2]))]
  | some scripts =>
    by_cases hmem : script ∈ scripts
    · rw [forceAddDef_eq_already halo hmem]
      cases hD : alookup st.functionDefinitions (name, s) with
      | some w => rfl
      | none =>
        have hne : ¬(s = script ∧ name = stem script) := by
          rintro ⟨h1, h2⟩
          apply hcov (stem script) script ⟨scripts, halo, hmem⟩
          rw [← h2, ← h1]
          exact hD
        rw [if_neg hne]
    · rw [forceAddDef_eq_append halo hmem]
      cases hD : alookup st.functionDefinitions (name, s) with
      | some w => exact alookup_asetIfMissing_of_some _ _ hD
      | none =>
        rw [alookup_asetIfMissing_of_none _ _ hD]
        by_cases hk : ((stem script, script) : String × String) = (name, s)
        · have hka : stem script = name := congrArg Prod.fst hk
          have hkb : script = s := congrArg Prod.snd hk
          rw [if_pos hk, if_pos ⟨hkb.symm, hka.symm⟩]
        · rw [if_neg hk, if_neg (by rintro ⟨h1, h2⟩; exact hk (by rw [h1, h2]))]

theorem coversDefs_forceAddDef {st : ScanSt} {script : String}
    (hcov : CoversDefs st) : CoversDefs (forceAddDef st script) := by
  intro name s hm
  rw [forceAddDef_fs] at hm
  rw [forceAddDef_defs_lookup hcov]
  cases hD : alookup st.functionDefinitions (name, s) with
  | some w => simp
  | none =>
    rcases memFS_addScript.mp hm with hold | ⟨h1, h2⟩
    · exact absurd hD (hcov name s hold)
    · rw [if_pos ⟨h2, h1⟩]
      simp

theorem fmFold_defs :
    ∀ (fm : List String) (st : ScanSt) {name s : String},
      CoversDefs st →
      alookup ((fm.foldl forceAddDef st)).functionDefinitions (name, s) =
        match alookup st.functionDefinitions (name, s) with
        | some ty => some ty
        | none => if s ∈ fm ∧ name = stem s then some DefType.scriptFile else none := by
  intro fm
  induction fm with
  | nil =>
    intro st name s _
    simp only [List.foldl_nil, List.not_mem_nil, false_and, if_false]
    cases alookup st.functionDefinitions (name, s) with
    | some w => rfl
    | none => rfl
  | cons x fm' ih =>
    intro st name s hcov
    rw [List.foldl_cons, ih _ (coversDefs_forceAddDef hcov), forceAddDef_defs_lookup hcov]
    cases hD : alookup st.functionDefinitions (name, s) with
    | some w => simp [hD]
    | none =>
      simp only [hD]
      by_cases h1 : s = x ∧ name = stem x
      · obtain ⟨hsx, hns⟩ := h1
        subst hsx
        simp [hns]
      · rw [if_neg h1]
        by_cases h2 : s ∈ fm' ∧ name = stem s
        · rw [if_pos h2, if_pos ⟨List.mem_cons_of_mem _ h2.1, h2.2⟩]
        · rw [if_neg h2, if_neg (by
            rintro ⟨hm, hn⟩
            rcases List.mem_cons.mp hm with rfl | hm'
            · exact h1 ⟨rfl, hn⟩
            · exact h2 ⟨hm', hn⟩)]

theorem coversDefs_parseFile {st : ScanSt} {f : SourceFile}
    (hcov : CoversDefs st) : CoversDefs (parseFile st f) := by
  unfold parseFile
  exact @foldlPreserve ScanSt String CoversDefs
    (fun st n => parseAddDef st f.path n (parseDefType f))
    (fun st n hst => coversDefs_parseAddDef hst) (parseNames f) st hcov

theorem coversDefs_filesFold (files : List SourceFile) :
    CoversDefs (files.foldl parseFile ⟨[], []⟩) := by
  refine @foldlPreserve ScanSt SourceFile CoversDefs parseFile
    (fun st f hst => coversDefs_parseFile hst) files ⟨[], []⟩ ?_
  rintro name s ⟨l, hl, _⟩
  cases hl

theorem coversDefs_scanPre (files : List SourceFile) (fm : List String) :
    CoversDefs (scanPre files fm) := by
  unfold scanPre
  exact @foldlPreserve ScanSt String CoversDefs forceAddDef
    (fun st x hst => coversDefs_forceAddDef hst) fm _ (coversDefs_filesFold files)

/-- The recorded definition type of `(name, s)` after the two mutating scan
passes, as a function of the file set and the force-map set (meaningful when
file paths are distinct): the parse pass's record wins, and the force-map
pass only adds the script-file record for a stem over its own path. -/
theorem scanPre_defs {files : List SourceFile} {fm : List String} {name s : String}
    (hnodup : (files.map SourceFile.path).Nodup) :
    alookup (scanPre files fm).functionDefinitions (name, s) =
      match parseDefSpec files name s with
      | some ty => some ty
      | none => if s ∈ fm ∧ name = stem s then some DefType.scriptFile else none := by
  unfold scanPre
  rw [fmFold_defs fm _ (coversDefs_filesFold files), filesFold_defs files _ hnodup]
  cases parseDefSpec files name s with
  | some ty => rfl
  | none => rfl

/-- On a duplicate-free key set, `find?` over a permuted list returns the
same element (there is at most one match). -/
theorem find?_eq_of_perm_of_nodup_map {files files' : List SourceFile} {s : String}
    (hperm : files.Perm files') (hnodup : (files.map SourceFile.path).Nodup) :
    files.find? (fun f => f.path == s) = files'.find? (fun f => f.path == s) := by
  cases h1 : files.find? (fun f => f.path == s) with
  | none =>
    rw [List.find?_eq_none] at h1
    symm
    rw [List.find?_eq_none]
    intro f hf
    exact h1 f (hperm.symm.subset hf)
  | some f =>
    have hmemf : f ∈ files := List.mem_of_find?_eq_some h1
    have hpf := List.find?_some h1
    cases h2 : files'.find? (fun f => f.path == s) with
    | none =>
      rw [List.find?_eq_none] at h2
      exact absurd hpf (by simpa using h2 f (hperm.subset hmemf))
    | some g =>
      have hmemg : g ∈ files := hperm.symm.subset (List.mem_of_find?_eq_some h2)
      have hpg := List.find?_some h2
      have hinj := List.inj_on_of_nodup_map hnodup
      have hfg : f = g := hinj hmemf hmemg (by
        have hf : f.path = s := by simpa using hpf
        have hg : g.path = s := by simpa using hpg
        rw [hf, hg])
      rw [hfg]

theorem parseDefSpec_perm {files files' : List SourceFile} {name s : String}
    (hperm : files.Perm files') (hnodup : (files.map SourceFile.path).Nodup) :
    parseDefSpec files name s = parseDefSpec files' name s := by
  unfold parseDefSpec
  rw [find?_eq_of_perm_of_nodup_map hperm hnodup]

/-- `_determine_primary_by_matlab_rules` depends only on the *set* of
candidate scripts and on the per-candidate definition lookups. -/
theorem determinePrimary_congr {defs defs' : List ((String × String) × DefType)}
    {paths : List (List String)} {name : String} {l₁ l₂ : List String}
    (h : l₁.Perm l₂)
    (hdefs : ∀ s, alookup defs (name, s) = alookup defs' (name, s)) :
    determinePrimaryByMatlabRules defs paths name l₁ =
      determinePrimaryByMatlabRules defs' paths name l₂ := by
  unfold determinePrimaryByMatlabRules
  have hfe : l₂.filter (fun s => decide (alookup defs (name, s) = some DefType.explicitFunction)) =
      l₂.filter (fun s => decide (alookup defs' (name, s) = some DefType.explicitFunction)) := by
    apply List.filter_congr
    intro s _
    rw [hdefs s]
  have hfs : l₂.filter (fun s => decide (alookup defs (name, s) = some DefType.scriptFile)) =
      l₂.filter (fun s => decide (alookup defs' (name, s) = some DefType.scriptFile)) := by
    apply List.filter_congr
    intro s _
    rw [hdefs s]
  have hpe : (l₁.filter
        (fun s => decide (alookup defs (name, s) = some DefType.explicitFunction))).Perm
      (l₂.filter (fun s => decide (alookup defs' (name, s) = some DefType.explicitFunction))) := by
    rw [← hfe]
    exact h.filter _
  have hps : (l₁.filter
        (fun s => decide (alookup defs (name, s) = some DefType.scriptFile))).Perm
      (l₂.filter (fun s => decide (alookup defs' (name, s) = some DefType.scriptFile))) := by
    rw [← hfs]
    exact h.filter _
  by_cases he : (l₁.filter
      (fun s => decide (alookup defs (name, s) = some DefType.explicitFunction))).isEmpty = true
  · have he₂ : (l₂.filter
        (fun s => decide (alookup defs' (name, s) = some DefType.explicitFunction))).isEmpty
          = true := by
      rw [List.isEmpty_iff] at he ⊢
      rw [he] at hpe
      exact hpe.symm.eq_nil
    rw [if_pos he, if_pos he₂]
    exact selectByMatlabPathRules_perm_eq hps
  · have he₂ : ¬(l₂.filter
        (fun s => decide (alookup defs' (name, s) = some DefType.explicitFunction))).isEmpty
          = true := by
      intro hc
      apply he
      rw [List.isEmpty_iff] at hc ⊢
      rw [hc] at hpe
      exact hpe.eq_nil
    rw [if_neg he, if_neg he₂]
    exact selectByMatlabPathRules_perm_eq hpe

/-- When every candidate script has a recorded definition of the name, the
determined primary is one of the candidates. -/
theorem determinePrimary_mem {defs : List ((String × String) × DefType)}
    {paths : List (List String)} {name : String} {scripts : List String}
    (hne : scripts ≠ []) (hcov : ∀ s ∈ scripts, alookup defs (name, s) ≠ none) :
    determinePrimaryByMatlabRules defs paths name scripts ∈ scripts := by
  unfold determinePrimaryByMatlabRules
  by_cases he : (scripts.filter
      (fun s => decide (alookup defs (name, s) = some DefType.explicitFunction))).isEmpty = true
  · rw [if_pos he]
    have hall : ∀ s ∈ scripts, alookup defs (name, s) = some DefType.scriptFile := by
      intro s hs
      cases hd : alookup defs (name, s) with
      | none => exact absurd hd (hcov s hs)
      | some ty =>
        cases ty with
        | scriptFile => rfl
        | explicitFunction =>
          exfalso
          rw [List.isEmpty_iff] at he
          have hmem : s ∈ scripts.filter
              (fun s => decide (alookup defs (name, s) = some DefType.explicitFunction)) := by
            rw [List.mem_filter]
            exact ⟨hs, by simp [hd]⟩
          rw [he] at hmem
          cases hmem
    have hfe : scripts.filter
        (fun s => decide (alookup defs (name, s) = some DefType.scriptFile)) = scripts := by
      rw [List.filter_eq_self]
      intro s hs
      simp [hall s hs]
    rw [hfe]
    exact selectByMatlabPathRules_mem hne
  · rw [if_neg he]
    have hne' : scripts.filter
        (fun s => decide (alookup defs (name, s) = some DefType.explicitFunction)) ≠ [] := by
      intro hc
      apply he
      rw [List.isEmpty_iff]
      exact hc
    exact List.mem_of_mem_filter (selectByMatlabPathRules_mem hne')

/-- The head of a name's script list after `_establish_matlab_syntax_relationships`
depends only on the set of candidates and the definition lookups. -/
theorem establishEntryScripts_head_eq {defs defs' : List ((String × String) × DefType)}
    {paths : List (List String)} {name : String} {l₁ l₂ : List String}
    (h : l₁.Perm l₂) (hne : l₁ ≠ [])
    (hdefs : ∀ s, alookup defs (name, s) = alookup defs' (name, s))
    (hcov : ∀ s ∈ l₁, alookup defs (name, s) ≠ none) :
    (establishEntryScripts defs paths name l₁).head? =
      (establishEntryScripts defs' paths name l₂).head? := by
  by_cases hlen : 1 < l₁.length
  · have hlen₂ : 1 < l₂.length := h.length_eq ▸ hlen
    have hne₂ : l₂ ≠ [] := fun hc => hne (by rw [hc] at h; exact h.eq_nil)
    have hcov₂ : ∀ s ∈ l₂, alookup defs' (name, s) ≠ none := fun s hs =>
      (hdefs s) ▸ hcov s (h.mem_iff.mpr hs)
    have hprim : determinePrimaryByMatlabRules defs paths name l₁ =
        determinePrimaryByMatlabRules defs' paths name l₂ := determinePrimary_congr h hdefs
    have hmem₁ := @determinePrimary_mem defs paths name l₁ hne hcov
    have hmem₂ := @determinePrimary_mem defs' paths name l₂ hne₂ hcov₂
    unfold establishEntryScripts
    rw [if_pos hlen, if_pos hlen₂, if_pos hmem₁, if_pos hmem₂]
    simp only [List.head?_cons]
    rw [hprim]
  · have hlen₂ : ¬1 < l₂.length := fun hc => hlen (h.length_eq.symm ▸ hc)
    have hpos : 0 < l₁.length := List.length_pos.mpr hne
    have h1 : l₁.length = 1 := by omega
    obtain ⟨x, hx⟩ := List.length_eq_one.mp h1
    subst hx
    have h2 : l₂ = [x] := List.perm_singleton.mp h.symm
    unfold establishEntryScripts
    rw [if_neg hlen, if_neg hlen₂, h2]

/-- C9: for every fixed set of script files, any two scans that enumerate
those files in different file-system orders — a permuted file list, and a
permuted iteration order of the script-path set in the force-map pass —
produce the same MATLAB search-path order (`matlab_paths`) and the same
primary definition (`function_scripts[name][0]`) for every function name:
resolution is reproducible across runs. -/
theorem scan_order_independent
    {files files' : List SourceFile} {fm fm' : List String}
    (hperm : files.Perm files')
    (hfm : fm.Perm (files.map SourceFile.path))
    (hfm' : fm'.Perm (files'.map SourceFile.path))
    (hnodup : (files.map SourceFile.path).Nodup) :
    (scanProject files fm).matlabPaths = (scanProject files' fm').matlabPaths ∧
      ∀ name, primaryDefinition (scanProject files fm) name =
        primaryDefinition (scanProject files' fm') name := by
  have hnodup' : (files'.map SourceFile.path).Nodup :=
    ((hperm.map SourceFile.path).nodup_iff).mp hnodup
  have hpaths : buildMatlabPathsCorrectly files = buildMatlabPathsCorrectly files' := by
    unfold buildMatlabPathsCorrectly
    have hsorteq : List.insertionSort strLE (files.map SourceFile.path) =
        List.insertionSort strLE (files'.map SourceFile.path) :=
      List.eq_of_perm_of_sorted
        (((List.perm_insertionSort strLE _).trans (hperm.map SourceFile.path)).trans
          (List.perm_insertionSort strLE _).symm)
        (List.sorted_insertionSort strLE _)
        (List.sorted_insertionSort strLE _)
    rw [hsorteq]
  have hmemiff : ∀ s : String, s ∈ fm ↔ s ∈ fm' := fun s =>
    hfm.mem_iff.trans (((hperm.map SourceFile.path).mem_iff).trans hfm'.mem_iff.symm)
  have hdefeq : ∀ name s, alookup (scanPre files fm).functionDefinitions (name, s) =
      alookup (scanPre files' fm').functionDefinitions (name, s) := by
    intro name s
    rw [scanPre_defs hnodup, scanPre_defs hnodup', parseDefSpec_perm hperm hnodup]
    cases parseDefSpec files' name s with
    | some ty => rfl
    | none =>
      by_cases hc : s ∈ fm ∧ name = stem s
      · rw [if_pos hc, if_pos ⟨(hmemiff s).mp hc.1, hc.2⟩]
      · rw [if_neg hc, if_neg (fun hc' => hc ⟨(hmemiff s).mpr hc'.1, hc'.2⟩)]
  have hmemFSiff : ∀ name s, memFS (scanPre files fm).functionScripts name s ↔
      memFS (scanPre files' fm').functionScripts name s := by
    intro name s
    rw [memFS_scanPre, memFS_scanPre]
    constructor
    · rintro (⟨f, hf, hfs, hfn⟩ | ⟨hs, hn⟩)
      · exact Or.inl ⟨f, hperm.subset hf, hfs, hfn⟩
      · exact Or.inr ⟨(hmemiff s).mp hs, hn⟩
    · rintro (⟨f, hf, hfs, hfn⟩ | ⟨hs, hn⟩)
      · exact Or.inl ⟨f, hperm.symm.subset hf, hfs, hfn⟩
      · exact Or.inr ⟨(hmemiff s).mpr hs, hn⟩
  have hunf : ∀ (fs : List SourceFile) (fmo : List String) (name : String),
      primaryDefinition (scanProject fs fmo) name =
        ((alookup (scanPre fs fmo).functionScripts name).map
          (fun l => establishEntryScripts (scanPre fs fmo).functionDefinitions
            (buildMatlabPathsCorrectly fs) name l)).bind List.head? := by
    intro fs fmo name
    show ((alookup ((scanPre fs fmo).functionScripts.map
        (fun nl => (nl.1, establishEntryScripts (scanPre fs fmo).functionDefinitions
          (buildMatlabPathsCorrectly fs) nl.1 nl.2))) name).bind List.head?) = _
    rw [alookup_map_entries]
  refine ⟨hpaths, ?_⟩
  intro name
  rw [hunf files fm name, hunf files' fm' name]
  cases h₁ : alookup (scanPre files fm).functionScripts name with
  | none =>
    have h₂ : alookup (scanPre files' fm').functionScripts name = none := by
      rw [alookup_none_iff_no_memFS (valsNeNil_scanPre files' fm')]
      rw [alookup_none_iff_no_memFS (valsNeNil_scanPre files fm)] at h₁
      rintro ⟨s, hs⟩
      exact h₁ ⟨s, (hmemFSiff name s).mpr hs⟩
    rw [h₂]
    rfl
  | some l₁ =>
    cases h₂ : alookup (scanPre files' fm').functionScripts name with
    | none =>
      exfalso
      rw [alookup_none_iff_no_memFS (valsNeNil_scanPre files' fm')] at h₂
      have hne₁ : l₁ ≠ [] := valsNeNil_scanPre files fm (name, l₁) (alookup_mem h₁)
      obtain ⟨s, hs⟩ := List.exists_mem_of_ne_nil l₁ hne₁
      exact h₂ ⟨s, (hmemFSiff name s).mp ⟨l₁, h₁, hs⟩⟩
    | some l₂ =>
      show (establishEntryScripts (scanPre files fm).functionDefinitions
          (buildMatlabPathsCorrectly files) name l₁).head? =
        (establishEntryScripts (scanPre files' fm').functionDefinitions
          (buildMatlabPathsCorrectly files') name l₂).head?
      rw [← hpaths]
      have hnd₁ : l₁.Nodup := nodupVals_scanPre files fm (name, l₁) (alookup_mem h₁)
      have hnd₂ : l₂.Nodup := nodupVals_scanPre files' fm' (name, l₂) (alookup_mem h₂)
      have hl12 : l₁.Perm l₂ := by
        rw [List.perm_ext_iff_of_nodup hnd₁ hnd₂]
        intro s
        constructor
        · intro hs
          obtain ⟨l, hl, hsl⟩ := (hmemFSiff name s).mp ⟨l₁, h₁, hs⟩
          rw [h₂] at hl
          injection hl with hl
          exact hl ▸ hsl
        · intro hs
          obtain ⟨l, hl, hsl⟩ := (hmemFSiff name s).mpr ⟨l₂, h₂, hs⟩
          rw [h₁] at hl
          injection hl with hl
          exact hl ▸ hsl
      have hne₁ : l₁ ≠ [] := valsNeNil_scanPre files fm (name, l₁) (alookup_mem h₁)
      exact establishEntryScripts_head_eq hl12 hne₁ (fun s => hdefeq name s)
        (fun s hs => coversDefs_scanPre files fm name s ⟨l₁, h₁, hs⟩)

/-- Witness for C9: the two-file project scanned in the two opposite
orders (with the matching set-iteration orders) yields equal search paths
and equal primaries for every name. -/
theorem scan_order_independent_witness :
    (scanProject twoFileProject ["a.m", "b.m"]).matlabPaths =
        (scanProject twoFileProjectReversed ["b.m", "a.m"]).matlabPaths ∧
      ∀ name, primaryDefinition (scanProject twoFileProject ["a.m", "b.m"]) name =
        primaryDefinition (scanProject twoFileProjectReversed ["b.m", "a.m"]) name :=
  scan_order_independent (by decide) (by decide) (by decide) (by decide)
